import Mathlib

/-!
Verification of the WARC-record parser (src/src/lib.rs) of duckdb_warc.

The Rust core is embedded shallowly:
* byte buffers are `List Nat` (each element a byte value),
* Rust `String`/`&str` values are `List Char`,
* the fallible stages return `Option`,
* the external collaborators (the flate2 gzip inflater and the warc
  crate record decoder) are parameters of the pipeline definitions,
* the `eprintln!` diagnostic is modelled as an explicit event list.
-/

/-- The NUL character, removed by the sanitizers in the source. -/
def nullChar : Char := Char.ofNat 0

/-- U+FFFD, the replacement character emitted by lossy UTF-8 decoding. -/
def replChar : Char := Char.ofNat 0xFFFD

/-- Opening curly bracket character. -/
def lbrace : Char := Char.ofNat 123

/-- Closing curly bracket character. -/
def rbrace : Char := Char.ofNat 125

/-- Boolean test that the first list is an initial segment of the second
(the comparison behind Rust starts_with and slice-pattern matching). -/
def isPfx [DecidableEq α] : List α → List α → Bool
  | [], _ => true
  | _ :: _, [] => false
  | a :: p, b :: l => if a = b then isPfx p l else false

/-- Boolean test that `p` occurs as a contiguous run somewhere in the list. -/
def hasSub [DecidableEq α] (p : List α) : List α → Bool
  | [] => isPfx p []
  | c :: l => isPfx p (c :: l) || hasSub p l

/-- Index of the first occurrence of `pat` as a contiguous run, the
embedding of the windows-position scan from the source. -/
def findPat [DecidableEq α] (pat : List α) : List α → Option Nat
  | [] => if isPfx pat [] then some 0 else none
  | x :: xs => if isPfx pat (x :: xs) then some 0 else (findPat pat xs).map (· + 1)

/-- Worker for `splitOnL`: scans left to right, cutting at each leftmost,
non-overlapping occurrence of `sep`; while `skip` is positive the scanner
is still inside an already-matched separator and discards characters. -/
def splitOnGo [DecidableEq α] (sep : List α) : Nat → List α → List α → List (List α)
  | _, acc, [] => [acc.reverse]
  | k + 1, acc, _ :: l => splitOnGo sep k acc l
  | 0, acc, c :: l =>
    if isPfx sep (c :: l) then
      acc.reverse :: splitOnGo sep (sep.length - 1) [] l
    else
      splitOnGo sep 0 (c :: acc) l

/-- Split a list on every leftmost, non-overlapping occurrence of `sep`
(the semantics of Rust str splitting with a string pattern, used to
formalise the spec's recovery-by-splitting property). -/
def splitOnL [DecidableEq α] (sep l : List α) : List (List α) := splitOnGo sep 0 [] l

/-- Join with a separator, the embedding of the vector join used by
`headers_to_json` and the HTTP header assembly in the source. -/
def joinSep (sep : List Char) : List (List Char) → List Char
  | [] => []
  | [x] => x
  | x :: y :: r => x ++ sep ++ joinSep sep (y :: r)

/-- Worker for `natDigits`; the fuel argument only forces termination and
is always sufficient at the call site. -/
def natDigitsGo : Nat → Nat → List Char → List Char
  | 0, _, acc => acc
  | fuel + 1, n, acc =>
    let d := Char.ofNat (48 + n % 10)
    if n / 10 = 0 then d :: acc else natDigitsGo fuel (n / 10) (d :: acc)

/-- Decimal digits of a natural number: the display format of the
unsigned content length in `headers_to_json`. -/
def natDigits (n : Nat) : List Char := natDigitsGo (n + 1) n []

/-- Replacement of every double quote by a backslash-quote pair: the
quote-escaping step of `sanitize_header` in the source. -/
def escQ : List Char → List Char
  | [] => []
  | c :: l => if c = '\"' then '\\' :: '\"' :: escQ l else c :: escQ l

/-- Leftmost-first replacement of each backslash-quote pair by a bare
quote: the inverse step used to state the spec's recovery property. -/
def unescQ : List Char → List Char
  | [] => []
  | [c] => [c]
  | c :: d :: l =>
    if c = '\\' ∧ d = '\"' then '\"' :: unescQ l
    else c :: unescQ (d :: l)

/-- Embedding of `sanitize_header` from the source: escape embedded
double quotes, then remove NUL characters. -/
def sanitizeHeader (v : List Char) : List Char := (escQ v).filter (fun c => c ≠ nullChar)

/-- Embedding of `sanitize_for_ffi` from the source: remove NUL characters. -/
def sanitizeForFFI (s : List Char) : List Char := s.filter (fun c => c ≠ nullChar)

example : sanitizeHeader ("a\"b".toList) = "a\\\"b".toList := by decide
example : sanitizeForFFI ['h', nullChar, 'i'] = ['h', 'i'] := by decide
example : splitOnL [44] [1, 2, 44, 3, 44] = [[1, 2], [3], []] := by decide
example : splitOnL [44, 45] [1, 44, 45, 2] = [[1], [2]] := by decide
example : findPat [3, 4] [1, 2, 3, 4, 3, 4] = some 2 := by decide
example : natDigits 507 = ['5', '0', '7'] := by decide
example : natDigits 0 = ['0'] := by decide
example : unescQ ("x\\\"y".toList) = "x\"y".toList := by decide

/-- The Unicode white-space property used by Rust str trimming. -/
def isRustWhitespace (c : Char) : Bool :=
  decide (c.toNat = 0x20 ∨ (0x9 ≤ c.toNat ∧ c.toNat ≤ 0xD) ∨ c.toNat = 0x85 ∨
    c.toNat = 0xA0 ∨ c.toNat = 0x1680 ∨ (0x2000 ≤ c.toNat ∧ c.toNat ≤ 0x200A) ∨
    c.toNat = 0x2028 ∨ c.toNat = 0x2029 ∨ c.toNat = 0x202F ∨ c.toNat = 0x205F ∨
    c.toNat = 0x3000)

/-- Embedding of Rust str trim: drop white space from both ends. -/
def trimRust (l : List Char) : List Char :=
  ((l.dropWhile isRustWhitespace).reverse.dropWhile isRustWhitespace).reverse

/-- Model of Rust str to_lowercase restricted to its ASCII action (header
keys in this program are ASCII; the full Unicode case table is out of
scope of the embedding). -/
def lowerAscii (l : List Char) : List Char :=
  l.map (fun c => if 'A' ≤ c ∧ c ≤ 'Z' then Char.ofNat (c.toNat + 32) else c)

/-- Embedding of Rust split_once on a single character: split at the
first occurrence, or return none when the character is absent. -/
def splitOnceChar (sep : Char) : List Char → Option (List Char × List Char)
  | [] => none
  | c :: l =>
    if c = sep then some ([], l)
    else (splitOnceChar sep l).map (fun ab => (c :: ab.1, ab.2))

/-- Embedding of Rust splitn with a character pattern: at most `n`
pieces, the last piece keeping the rest of the string. -/
def splitnChar : Nat → Char → List Char → List (List Char)
  | 0, _, _ => []
  | 1, _, s => [s]
  | n + 2, sep, s =>
    match splitOnceChar sep s with
    | some (a, b) => a :: splitnChar (n + 1) sep b
    | none => [s]

/-- Embedding of Rust i32 parsing: optional sign, one or more ASCII
digits, nothing else, and the value must fit in a 32-bit signed integer. -/
def parseI32 (s : List Char) : Option Int :=
  let signDigits : Bool × List Char :=
    match s with
    | '+' :: t => (false, t)
    | '-' :: t => (true, t)
    | t => (false, t)
  let neg := signDigits.1
  let digits := signDigits.2
  if digits = [] then none
  else if ¬ digits.all (fun c => decide ('0' ≤ c ∧ c ≤ '9')) then none
  else
    let n : Nat := digits.foldl (fun a c => a * 10 + (c.toNat - 48)) 0
    let v : Int := if neg then -(n : Int) else (n : Int)
    if -2147483648 ≤ v ∧ v ≤ 2147483647 then some v else none

/-- Continuation-byte test for UTF-8 decoding. -/
def utf8Cont (c : Nat) : Bool := decide (0x80 ≤ c ∧ c ≤ 0xBF)

/-- Valid range of the second byte of a multi-byte UTF-8 sequence,
which depends on the leading byte (the restricted ranges exclude
overlong encodings, surrogates and values beyond U+10FFFF). -/
def utf8SecondOk (b c : Nat) : Bool :=
  if b = 0xE0 then decide (0xA0 ≤ c ∧ c ≤ 0xBF)
  else if b = 0xED then decide (0x80 ≤ c ∧ c ≤ 0x9F)
  else if b = 0xF0 then decide (0x90 ≤ c ∧ c ≤ 0xBF)
  else if b = 0xF4 then decide (0x80 ≤ c ∧ c ≤ 0x8F)
  else utf8Cont c

/-- Worker for `utf8Lossy`; each step consumes at least one byte, so the
fuel argument only forces termination and is always sufficient at the
call site. -/
def utf8LossyGo : Nat → List Nat → List Char
  | 0, _ => []
  | _ + 1, [] => []
  | fuel + 1, b :: l =>
    if b < 0x80 then Char.ofNat b :: utf8LossyGo fuel l
    else if b < 0xC2 then replChar :: utf8LossyGo fuel l
    else if b ≤ 0xDF then
      match l with
      | c1 :: l1 =>
        if utf8Cont c1 then Char.ofNat ((b - 0xC0) * 64 + (c1 - 0x80)) :: utf8LossyGo fuel l1
        else replChar :: utf8LossyGo fuel l
      | [] => [replChar]
    else if b ≤ 0xEF then
      match l with
      | c1 :: l1 =>
        if utf8SecondOk b c1 then
          match l1 with
          | c2 :: l2 =>
            if utf8Cont c2 then
              Char.ofNat ((b - 0xE0) * 4096 + (c1 - 0x80) * 64 + (c2 - 0x80)) :: utf8LossyGo fuel l2
            else replChar :: utf8LossyGo fuel l1
          | [] => [replChar]
        else replChar :: utf8LossyGo fuel l
      | [] => [replChar]
    else if b ≤ 0xF4 then
      match l with
      | c1 :: l1 =>
        if utf8SecondOk b c1 then
          match l1 with
          | c2 :: l2 =>
            if utf8Cont c2 then
              match l2 with
              | c3 :: l3 =>
                if utf8Cont c3 then
                  Char.ofNat ((b - 0xF0) * 262144 + (c1 - 0x80) * 4096 +
                    (c2 - 0x80) * 64 + (c3 - 0x80)) :: utf8LossyGo fuel l3
                else replChar :: utf8LossyGo fuel l2
              | [] => [replChar]
            else replChar :: utf8LossyGo fuel l1
          | [] => [replChar]
        else replChar :: utf8LossyGo fuel l
      | [] => [replChar]
    else replChar :: utf8LossyGo fuel l

/-- Embedding of Rust lossy UTF-8 decoding with the maximal-subpart
substitution rule: each maximal prefix of a valid sequence that cannot be
completed is replaced by one U+FFFD. -/
def utf8Lossy (l : List Nat) : List Char := utf8LossyGo l.length l

/-- Remove one trailing carriage return, as Rust lines does on every
piece that was terminated by a newline. -/
def stripCR (l : List Char) : List Char :=
  match l.getLast? with
  | some c => if c = '\r' then l.dropLast else l
  | none => l

/-- Assemble Rust lines from the newline-split pieces: pieces that were
terminated by a newline lose one trailing carriage return; a final empty
piece (text ending in a newline) yields no line; a final piece without a
newline is kept verbatim. -/
def rustLinesOf (parts : List (List Char)) : List (List Char) :=
  match parts.getLast? with
  | some last =>
    if last = [] then parts.dropLast.map stripCR
    else parts.dropLast.map stripCR ++ [last]
  | none => []

/-- Embedding of Rust str lines: split on newline and assemble. -/
def rustLines (s : List Char) : List (List Char) := rustLinesOf (splitOnL ['\n'] s)

example : trimRust ("  a b\t".toList) = "a b".toList := by decide
example : lowerAscii ("Content-Type".toList) = "content-type".toList := by decide
example : splitnChar 3 ' ' ("HTTP/1.1 200 OK extra".toList) =
  ["HTTP/1.1".toList, "200".toList, "OK extra".toList] := by decide
example : splitnChar 3 ' ' ("HTTP/1.1".toList) = ["HTTP/1.1".toList] := by decide
example : parseI32 ("200".toList) = some 200 := by decide
example : parseI32 ("-42".toList) = some (-42) := by decide
example : parseI32 ("20x".toList) = none := by decide
example : parseI32 ("2147483648".toList) = none := by decide
example : parseI32 ([] : List Char) = none := by decide
example : utf8Lossy [72, 105] = ['H', 'i'] := by decide
example : utf8Lossy [0xC3, 0xA9] = [Char.ofNat 0xE9] := by decide
example : utf8Lossy [0xE1, 0x80, 0x41] = [replChar, 'A'] := by decide
example : utf8Lossy [0xE0, 0x80] = [replChar, replChar] := by decide
example : rustLines ("a\r\nb\nc".toList) = ["a".toList, "b".toList, "c".toList] := by decide
example : rustLines ("a\n".toList) = ["a".toList] := by decide
example : rustLines ("a\r".toList) = ["a\r".toList] := by decide
example : rustLines ([] : List Char) = [] := by decide

/-- The byte sequence of the ASCII literal that a response body must
start with. -/
def httpMagic : List Nat := [72, 84, 84, 80, 47]

/-- Embedding of the separator search in `parse_http_response`: the
position and length of the header/body separator, preferring the first
CRLFCRLF and falling back to the first LFLF. -/
def separatorPos (body : List Nat) : Option (Nat × Nat) :=
  match findPat [13, 10, 13, 10] body with
  | some p => some (p, 4)
  | none => (findPat [10, 10] body).map (fun p => (p, 2))

/-- The four results of `parse_http_response`, each independently
optional: version, status, encoded headers, raw body bytes. -/
structure HttpParts where
  version : Option (List Char)
  status : Option Int
  headers : Option (List Char)
  body : Option (List Nat)
deriving DecidableEq, Repr

/-- The body of the format string used for one encoded header pair:
a quoted key, a colon and space, and a quoted value. -/
def pairStr (k v : List Char) : List Char :=
  ['\"'] ++ k ++ ['\"', ':', ' ', '\"'] ++ v ++ ['\"']

/-- Wrap an encoded pair list in curly brackets, the outer format of
both JSON-like maps produced by the source. -/
def braceWrap (l : List Char) : List Char := lbrace :: (l ++ [rbrace])

/-- Embedding of `parse_http_response` from the source: reject bodies
without the HTTP magic, find the header/body separator, decode the
header section as lossy UTF-8, split the status line on its first two
spaces, collect colon-separated header lines into an encoded map with
lower-cased keys, and return the raw remaining bytes as the body unless
`skipBody` is set. -/
def parseHttpResponse (body : List Nat) (skipBody : Bool) : HttpParts :=
  if ¬ isPfx httpMagic body then ⟨none, none, none, none⟩
  else
    match separatorPos body with
    | none => ⟨none, none, none, none⟩
    | some (pos, sepLen) =>
      let headerText := utf8Lossy (body.take pos)
      let lns := rustLines headerText
      let versionStatus : Option (List Char) × Option Int :=
        match lns with
        | statusLine :: _ =>
          let parts := splitnChar 3 ' ' statusLine
          (((parts.get? 0).map sanitizeForFFI), ((parts.get? 1).bind parseI32))
        | [] => (none, none)
      let headerPairs := (lns.drop 1).filterMap (fun line =>
        (splitOnceChar ':' line).map (fun kv =>
          pairStr (escQ (lowerAscii (sanitizeForFFI (trimRust kv.1))))
                  (escQ (sanitizeForFFI (trimRust kv.2)))))
      let httpHeaders : Option (List Char) :=
        if headerPairs = [] then none
        else some (braceWrap (joinSep [',', ' '] headerPairs))
      let httpBody : Option (List Nat) :=
        if skipBody then none else some (body.drop (pos + sepLen))
      ⟨versionStatus.1, versionStatus.2, httpHeaders, httpBody⟩

/-- Helper for the concrete test inputs: the bytes of an ASCII string. -/
def asciiBytes (s : String) : List Nat := s.toList.map Char.toNat

example :
    parseHttpResponse (asciiBytes "HTTP/1.1 404 Not Found\r\nContent-Type: text/plain\r\n\r\nNot found") false =
      ⟨some ("HTTP/1.1".toList), some 404,
        some (braceWrap (pairStr ("content-type".toList) ("text/plain".toList))),
        some (asciiBytes "Not found")⟩ := by decide

example :
    parseHttpResponse (asciiBytes "HTTP/1.1 200 OK\r\nContent-Type: image/png\r\n\r\n" ++ [137, 80]) true =
      ⟨some ("HTTP/1.1".toList), some 200,
        some (braceWrap (pairStr ("content-type".toList) ("image/png".toList))),
        none⟩ := by decide

example :
    parseHttpResponse (asciiBytes "Not HTTP data") false = ⟨none, none, none, none⟩ := by decide

/-- A decoded WARC record as exposed by the warc crate to the code under
verification: the version token, the named headers the source queries
(each optional), and the buffered block. `declaredContentLength` is what
the Content-Length header lookup would return; `headers_to_json` must not
use it. For a buffered body the crate guarantees that the value returned
by its content_length accessor equals the block length, so that accessor
is embedded as `warcContentLength` below. -/
structure WarcRecord where
  version : List Char
  warcType : Option (List Char)
  date : Option (List Char)
  recordID : Option (List Char)
  targetURI : Option (List Char)
  ipAddress : Option (List Char)
  contentType : Option (List Char)
  declaredContentLength : Option (List Char)
  payloadDigest : Option (List Char)
  blockDigest : Option (List Char)
  identifiedPayloadType : Option (List Char)
  body : List Nat
deriving DecidableEq, Repr

/-- The content_length accessor of the warc crate on a buffered record:
the actual length of the block. -/
def warcContentLength (r : WarcRecord) : Nat := r.body.length

/-- One optional entry of the WARC header map: present exactly when the
record carries the header, with the value quote-escaped and NUL-stripped. -/
def optPair (k : List Char) : Option (List Char) → List (List Char)
  | some v => [pairStr k (sanitizeHeader v)]
  | none => []

/-- The entry always pushed for Content-Length: quoted key, bare integer
value (not a quoted string). -/
def contentLengthEntry (n : Nat) : List Char :=
  ['\"'] ++ "Content-Length".toList ++ ['\"', ':', ' '] ++ natDigits n

/-- The ordered pair list built by `headers_to_json` in the source:
each named header only if present, except Content-Length which is always
included and computed from the block length. -/
def headersToJsonPairs (r : WarcRecord) : List (List Char) :=
  optPair ("WARC-Type".toList) r.warcType ++
  optPair ("WARC-Date".toList) r.date ++
  optPair ("WARC-Record-ID".toList) r.recordID ++
  optPair ("WARC-Target-URI".toList) r.targetURI ++
  optPair ("WARC-IP-Address".toList) r.ipAddress ++
  optPair ("Content-Type".toList) r.contentType ++
  [contentLengthEntry (warcContentLength r)] ++
  optPair ("WARC-Payload-Digest".toList) r.payloadDigest ++
  optPair ("WARC-Block-Digest".toList) r.blockDigest ++
  optPair ("WARC-Identified-Payload-Type".toList) r.identifiedPayloadType

/-- Embedding of `headers_to_json` from the source: the joined pair list
wrapped in curly brackets. -/
def headersToJson (r : WarcRecord) : List Char :=
  braceWrap (joinSep [',', ' '] (headersToJsonPairs r))

/-- The record produced by `parse_warc_record`: WARC fields always
present, HTTP fields optional. -/
structure ParsedRecord where
  warc_version : List Char
  warc_headers : List Char
  http_version : Option (List Char)
  http_status : Option Int
  http_headers : Option (List Char)
  http_body : Option (List Nat)
deriving DecidableEq, Repr

/-- The observable diagnostic event emitted for binary response bodies,
carrying the target URI and identified payload type (empty when the
headers are absent, as with unwrap_or_default in the source). -/
structure DiagEvent where
  uri : List Char
  payloadType : List Char
deriving DecidableEq, Repr

/-- Embedding of `parse_warc_record` from the source, taking the outcome
of the external warc crate decoder (none covers both an empty buffer and
a read error) and returning the parsed record together with the list of
emitted diagnostic events. -/
def parseWarcRecord (decoded : Option WarcRecord) : Option ParsedRecord × List DiagEvent :=
  match decoded with
  | none => (none, [])
  | some record =>
    let warcVersion := sanitizeForFFI record.version
    let warcHeaders := sanitizeForFFI (headersToJson record)
    match record.warcType with
    | none => (none, [])
    | some wt =>
      if wt = "response".toList then
        let body := record.body
        let isBinary := body.contains 0
        let events :=
          if isBinary then
            [⟨record.targetURI.getD [], record.identifiedPayloadType.getD []⟩]
          else []
        let h := parseHttpResponse body isBinary
        (some ⟨warcVersion, warcHeaders, h.version, h.status, h.headers, h.body⟩, events)
      else
        (some ⟨warcVersion, warcHeaders, none, none, none, none⟩, [])

/-- One output row of the scalar function: the six nullable columns
written per input row by the invoke loop. -/
structure OutputRow where
  warc_version : Option (List Char)
  warc_headers : Option (List Char)
  http_version : Option (List Char)
  http_status : Option Int
  http_headers : Option (List Char)
  http_body : Option (List Nat)
deriving DecidableEq, Repr

/-- The fully-null output row. -/
def nullRow : OutputRow := ⟨none, none, none, none, none, none⟩

/-- How the invoke loop writes one parse outcome into its row: a missing
record nulls every column, otherwise the two WARC columns are written
unconditionally and each HTTP column follows its option. -/
def toRow : Option ParsedRecord → OutputRow
  | none => nullRow
  | some r => ⟨some r.warc_version, some r.warc_headers,
      r.http_version, r.http_status, r.http_headers, r.http_body⟩

/-- Embedding of the decompression stage of the invoke loop,
parameterised by the external gzip inflater: use the inflated bytes when
inflation succeeds with a non-empty result, otherwise the raw input. -/
def decompressWith (inflate : List Nat → Option (List Nat)) (raw : List Nat) : List Nat :=
  match inflate raw with
  | some d => if d = [] then raw else d
  | none => raw

/-- The whole per-row pipeline, parameterised by the two external
collaborators: gzip inflation, then record decoding, then
`parse_warc_record`. -/
def pipelineParse (inflate : List Nat → Option (List Nat))
    (decode : List Nat → Option WarcRecord) (raw : List Nat) :
    Option ParsedRecord × List DiagEvent :=
  parseWarcRecord (decode (decompressWith inflate raw))

/-- The four-character split pattern quote colon space quote from the
spec's recovery property. -/
def patQColonQ : List Char := ['\"', ':', ' ', '\"']

/-- The four-character split pattern quote comma space quote from the
spec's recovery property. -/
def patQCommaQ : List Char := ['\"', ',', ' ', '\"']

/-- One optional key-value entry of the header map, present exactly when
the record carries the header. -/
def optEntry (k : List Char) : Option (List Char) → List (List Char × List Char)
  | some v => [(k, v)]
  | none => []

/-- The string-valued header entries serialized by `headers_to_json`
before the always-present numeric Content-Length entry, in source order:
each is rendered as a quoted key and a quoted escaped value. -/
def warcQuotedEntries (r : WarcRecord) : List (List Char × List Char) :=
  optEntry ("WARC-Type".toList) r.warcType ++
  optEntry ("WARC-Date".toList) r.date ++
  optEntry ("WARC-Record-ID".toList) r.recordID ++
  optEntry ("WARC-Target-URI".toList) r.targetURI ++
  optEntry ("WARC-IP-Address".toList) r.ipAddress ++
  optEntry ("Content-Type".toList) r.contentType

/-- The interior of one encoded quoted pair, between the opening quote
of the key and the closing quote of the value: key, quote colon space
quote, escaped value. -/
def entryPiece (e : List Char × List Char) : List Char :=
  e.1 ++ (['\"', ':', ' ', '\"'] ++ escQ e.2)

/-- Concatenation of pieces, each followed by the separator, ending in a
tail. -/
def sepChain (sep : List α) : List (List α) → List α → List α
  | [], tail => tail
  | x :: xs, tail => x ++ sep ++ sepChain sep xs tail

/-- The recovery procedure named by the spec, at header index `i`: split
the encoded header map on the quote comma space quote pattern, split the
piece at index `i` on the quote colon space quote pattern, and unescape
the piece after the key (that header's encoded value). -/
def recoverValueAt (i : Nat) (enc : List Char) : Option (List Char) :=
  ((splitOnL patQCommaQ enc).get? i).bind fun piece =>
    ((splitOnL patQColonQ piece).get? 1).map unescQ

/-- An occurrence of `pat` starting exactly at index `i`. -/
def occAt (pat l : List α) [DecidableEq α] (i : Nat) : Prop :=
  isPfx pat (l.drop i) = true

/-- The first occurrence of `pat` is at index `i`. -/
def firstOcc (pat l : List α) [DecidableEq α] (i : Nat) : Prop :=
  occAt pat l i ∧ ∀ j < i, ¬ occAt pat l j

/-- No occurrence of `pat` anywhere in `l` (for a non-empty pattern the
bound is exhaustive, as nothing can occur beyond the end). -/
def noOcc (pat l : List α) [DecidableEq α] : Prop :=
  ∀ j ≤ l.length, ¬ occAt pat l j

instance {α : Type} [DecidableEq α] (pat l : List α) (i : Nat) : Decidable (occAt pat l i) := by
  unfold occAt; infer_instance

instance {α : Type} [DecidableEq α] (pat l : List α) (i : Nat) : Decidable (firstOcc pat l i) := by
  unfold firstOcc occAt; infer_instance

instance {α : Type} [DecidableEq α] (pat l : List α) : Decidable (noOcc pat l) := by
  unfold noOcc occAt; infer_instance

/-- The encoded pair the claim text predicts for one HTTP header line:
key lower-cased and trimmed, value kept as-is after trimming. -/
def asIsHeaderPair (line : List Char) : Option (List Char) :=
  (splitOnceChar ':' line).map (fun kv =>
    pairStr (lowerAscii (trimRust kv.1)) (trimRust kv.2))

/-- The header map the claim text predicts from the lines after the
status line: as-is pairs, absent instead of empty. -/
def asIsHeaders (lns : List (List Char)) : Option (List Char) :=
  let pairs := lns.filterMap (fun line => asIsHeaderPair line)
  if pairs = [] then none else some (braceWrap (joinSep [',', ' '] pairs))

/-- The encoded pair the code actually produces for one HTTP header
line: both sides trimmed and NUL-stripped, the key lower-cased, and
double quotes escaped in both. -/
def sanitizedHeaderPair (line : List Char) : Option (List Char) :=
  (splitOnceChar ':' line).map (fun kv =>
    pairStr (escQ (lowerAscii (sanitizeForFFI (trimRust kv.1))))
            (escQ (sanitizeForFFI (trimRust kv.2))))

/-- The header map built from the lines after the status line with the
sanitizing pair encoding, absent instead of empty. -/
def sanitizedHeaders (lns : List (List Char)) : Option (List Char) :=
  let pairs := lns.filterMap (fun line => sanitizedHeaderPair line)
  if pairs = [] then none else some (braceWrap (joinSep [',', ' '] pairs))

/-- The status line the HTTP parser sees for a separator at `pos`. -/
def statusLineAt (body : List Nat) (pos : Nat) : Option (List Char) :=
  (rustLines (utf8Lossy (body.take pos))).get? 0

/-- The version token the HTTP parser extracts for a separator at `pos`;
never consulted by the status computation. -/
def httpVersionAt (body : List Nat) (pos : Nat) : Option (List Char) :=
  (statusLineAt body pos).bind fun sl => ((splitnChar 3 ' ' sl).get? 0).map sanitizeForFFI

/-- The status token (second space-separated token of the status line)
for a separator at `pos`. -/
def statusTokenAt (body : List Nat) (pos : Nat) : Option (List Char) :=
  (statusLineAt body pos).bind fun sl => (splitnChar 3 ' ' sl).get? 1

/-- The encoded HTTP header map for a separator at `pos`; never
consulted by the status computation. -/
def httpHeadersAt (body : List Nat) (pos : Nat) : Option (List Char) :=
  sanitizedHeaders ((rustLines (utf8Lossy (body.take pos))).drop 1)

/-- A toy inflater for exercising the decompression stage on concrete
inputs. -/
def toyInflate (l : List Nat) : Option (List Nat) :=
  if l = [9, 9] then some [1, 2] else none

/-- A toy record decoder for exercising the pipeline on concrete inputs. -/
def toyDecode (_ : List Nat) : Option WarcRecord := none

/-- A concrete binary-bodied response record for exercising C2. -/
def binRecord : WarcRecord :=
  { version := "1.0".toList
    warcType := some ("response".toList)
    date := none
    recordID := none
    targetURI := some ("http://x/".toList)
    ipAddress := none
    contentType := none
    declaredContentLength := none
    payloadDigest := none
    blockDigest := none
    identifiedPayloadType := none
    body := asciiBytes "HTTP/1.1 200 OK\r\nA: b\r\n\r\n" ++ [0] }

/-- A concrete body whose status token is not an integer. -/
def c7Body : List Nat := asciiBytes "HTTP/1.1 abc OK\r\nA: b\r\n\r\nrest"

/-- A concrete body with a double quote inside a header value. -/
def c8Body : List Nat := asciiBytes "HTTP/1.1 200 OK\nx: a\"b\n\n"

/-- A concrete well-formed response head. -/
def c10Body : List Nat := asciiBytes "HTTP/1.1 200 OK\r\n\r\n"

/-- Boolean check that no occurrence of `sep` starts inside `xs` when
`xs` is immediately followed by `sep`: every non-empty suffix of `xs`
fails to begin an occurrence. -/
def noBnd [DecidableEq α] (sep : List α) : List α → Bool
  | [] => true
  | c :: l => !(isPfx sep ((c :: l) ++ sep)) && noBnd sep l

/-- A record whose WARC-Type value defeats the recovery procedure of
the spec (the value ends in quote comma space). -/
def cexRecord : WarcRecord :=
  { version := "1.0".toList
    warcType := some ("x\", ".toList)
    date := none
    recordID := none
    targetURI := none
    ipAddress := none
    contentType := none
    declaredContentLength := none
    payloadDigest := none
    blockDigest := none
    identifiedPayloadType := none
    body := [] }

/-- A record with a quote-bearing WARC-Date value on which recovery at
index one succeeds. -/
def okRecord : WarcRecord :=
  { version := "1.0".toList
    warcType := some ("metadata".toList)
    date := some ("a\"b".toList)
    recordID := none
    targetURI := none
    ipAddress := none
    contentType := none
    declaredContentLength := none
    payloadDigest := none
    blockDigest := none
    identifiedPayloadType := none
    body := [7, 7] }

/-- An empty pattern is the only initial segment of the empty list. -/
theorem isPfx_nil_right {α : Type} [DecidableEq α] {p : List α} (hp : p ≠ []) :
    isPfx p ([] : List α) = false := by
  cases p with
  | nil => exact absurd rfl hp
  | cons a t => simp [isPfx]

/-- Correctness of the windows-position embedding, some case: the found
index is an occurrence and nothing earlier is. -/
theorem findPat_eq_some_iff {α : Type} [DecidableEq α] (pat : List α) (hp : pat ≠ []) :
    ∀ (l : List α) (i : Nat), findPat pat l = some i ↔ firstOcc pat l i := by
  intro l
  induction l with
  | nil =>
    intro i
    simp only [findPat, isPfx_nil_right hp]
    constructor
    · intro h
      simp at h
    · intro h
      have h1 := h.1
      simp only [occAt, List.drop_nil, isPfx_nil_right hp] at h1
      simp at h1
  | cons x xs ih =>
    intro i
    by_cases hx : isPfx pat (x :: xs) = true
    · simp only [findPat, hx, if_pos]
      constructor
      · intro h
        have hi : i = 0 := by
          have := Option.some.inj h
          omega
        subst hi
        exact ⟨hx, by omega⟩
      · intro h
        cases i with
        | zero => rfl
        | succ k =>
          have := h.2 0 (by omega)
          simp only [occAt, List.drop_zero] at this
          exact absurd hx this
    · simp only [findPat, hx, if_neg, Bool.false_eq_true, not_false_iff, if_false]
      constructor
      · intro h
        rcases Option.map_eq_some'.mp h with ⟨a, ha, hai⟩
        rcases (ih a).mp ha with ⟨h1, h2⟩
        subst hai
        refine ⟨by simpa [occAt, List.drop_succ_cons] using h1, ?_⟩
        intro j hj
        cases j with
        | zero => simpa [occAt] using hx
        | succ k =>
          have hk : k < a := by omega
          simpa [occAt, List.drop_succ_cons] using h2 k hk
      · intro h
        cases i with
        | zero =>
          have h1 := h.1
          simp only [occAt, List.drop_zero] at h1
          exact absurd h1 hx
        | succ k =>
          have h1 : occAt pat xs k := by
            simpa [occAt, List.drop_succ_cons] using h.1
          have h2 : ∀ j < k, ¬ occAt pat xs j := by
            intro j hj
            have := h.2 (j + 1) (by omega)
            simpa [occAt, List.drop_succ_cons] using this
          have := (ih k).mpr ⟨h1, h2⟩
          simp [this]
  
/-- Correctness of the windows-position embedding, none case: the
pattern occurs nowhere. -/
theorem findPat_eq_none_iff {α : Type} [DecidableEq α] (pat : List α) (hp : pat ≠ []) :
    ∀ (l : List α), findPat pat l = none ↔ noOcc pat l := by
  intro l
  induction l with
  | nil =>
    simp only [findPat, isPfx_nil_right hp]
    constructor
    · intro _ j hj
      simp only [occAt, List.drop_nil, isPfx_nil_right hp]
      simp
    · intro _
      simp
  | cons x xs ih =>
    by_cases hx : isPfx pat (x :: xs) = true
    · simp only [findPat, hx, if_pos]
      constructor
      · intro h
        simp at h
      · intro h
        have := h 0 (by omega)
        simp only [occAt, List.drop_zero] at this
        exact absurd hx this
    · simp only [findPat, hx, if_neg, Bool.false_eq_true, not_false_iff, if_false,
        Option.map_eq_none']
      rw [ih]
      constructor
      · intro h j hj
        cases j with
        | zero => simpa [occAt] using hx
        | succ k =>
          have hk : k ≤ xs.length := by simpa using hj
          simpa [occAt, List.drop_succ_cons] using h k hk
      · intro h j hj
        have := h (j + 1) (by simpa using hj)
        simpa [occAt, List.drop_succ_cons] using this

/-- The split scanner never returns an empty piece list. -/
theorem splitOnGo_ne_nil {α : Type} [DecidableEq α] (sep : List α) :
    ∀ (l acc : List α) (k : Nat), splitOnGo sep k acc l ≠ [] := by
  intro l
  induction l with
  | nil => intro acc k; cases k <;> simp [splitOnGo]
  | cons c t ih =>
    intro acc k
    cases k with
    | zero =>
      simp only [splitOnGo]
      split
      · simp
      · exact ih _ _
    | succ k2 => simpa [splitOnGo] using ih acc k2

/-- The first piece produced by the split scanner extends the pending
accumulator. -/
theorem splitOnGo_zero_head {α : Type} [DecidableEq α] (sep : List α) :
    ∀ (l acc : List α), ∃ t rest, splitOnGo sep 0 acc l = (acc.reverse ++ t) :: rest := by
  intro l
  induction l with
  | nil => intro acc; exact ⟨[], [], by simp [splitOnGo]⟩
  | cons c t ih =>
    intro acc
    simp only [splitOnGo]
    split
    · exact ⟨[], splitOnGo sep (sep.length - 1) [] t, by simp⟩
    · obtain ⟨t2, rest, h⟩ := ih (c :: acc)
      exact ⟨c :: t2, rest, by simp [h]⟩

/-- Lossy UTF-8 decoding of a non-empty byte list is non-empty. -/
theorem utf8Lossy_ne_nil {l : List Nat} (h : l ≠ []) : utf8Lossy l ≠ [] := by
  cases l with
  | nil => exact absurd rfl h
  | cons b t =>
    show utf8LossyGo (b :: t).length (b :: t) ≠ []
    simp only [List.length_cons, utf8LossyGo]
    repeat' split
    all_goals simp

/-- Line assembly yields at least one line unless the split produced a
single empty piece. -/
theorem rustLinesOf_ne_nil (parts : List (List Char)) (h1 : parts ≠ [])
    (h2 : parts.head? ≠ some [] ∨ 2 ≤ parts.length) : rustLinesOf parts ≠ [] := by
  cases parts with
  | nil => exact absurd rfl h1
  | cons p ps =>
    cases ps with
    | nil =>
      have hp : p ≠ [] := by
        rcases h2 with h2 | h2
        · intro hep; exact h2 (by simp [hep])
        · simp at h2
      simp [rustLinesOf, hp]
    | cons q qs =>
      unfold rustLinesOf
      split
      next last heq => split <;> simp
      next heq => simp at heq

/-- Rust line splitting of a non-empty string yields at least one line. -/
theorem rustLines_ne_nil {s : List Char} (h : s ≠ []) : rustLines s ≠ [] := by
  cases s with
  | nil => exact absurd rfl h
  | cons c t =>
    unfold rustLines splitOnL
    simp only [splitOnGo]
    split
    · refine rustLinesOf_ne_nil _ (by simp) (Or.inr ?_)
      cases hrest : splitOnGo ['\n'] 0 [] t with
      | nil => exact absurd hrest (splitOnGo_ne_nil _ _ _ _)
      | cons p ps => simp [hrest]
    · obtain ⟨t2, rest, hsh⟩ := splitOnGo_zero_head ['\n'] t [c]
      rw [hsh]
      exact rustLinesOf_ne_nil _ (by simp) (Or.inl (by simp))

/-- Splitting into at least one piece never yields an empty piece list. -/
theorem splitnChar_ne_nil (n : Nat) (sep : Char) (s : List Char) :
    splitnChar (n + 1) sep s ≠ [] := by
  cases n with
  | zero => simp [splitnChar]
  | succ m =>
    show splitnChar (m + 2) sep s ≠ []
    unfold splitnChar
    split <;> simp

/-- The version, status and header results of the HTTP parser do not
depend on the skip-body flag. -/
theorem parseHttp_skip_invariant (body : List Nat) (s1 s2 : Bool) :
    (parseHttpResponse body s1).version = (parseHttpResponse body s2).version ∧
    (parseHttpResponse body s1).status = (parseHttpResponse body s2).status ∧
    (parseHttpResponse body s1).headers = (parseHttpResponse body s2).headers := by
  by_cases hm : isPfx httpMagic body = true
  · cases hs : separatorPos body with
    | none => simp [parseHttpResponse, hm, hs]
    | some ps =>
      obtain ⟨pos, sl⟩ := ps
      simp [parseHttpResponse, hm, hs]
  · have hm2 : isPfx httpMagic body = false := by simpa using hm
    simp [parseHttpResponse, hm2]

/-- With the skip-body flag set, the body result is always absent. -/
theorem parseHttp_skip_body_none (body : List Nat) :
    (parseHttpResponse body true).body = none := by
  by_cases hm : isPfx httpMagic body = true
  · cases hs : separatorPos body with
    | none => simp [parseHttpResponse, hm, hs]
    | some ps =>
      obtain ⟨pos, sl⟩ := ps
      simp [parseHttpResponse, hm, hs]
  · have hm2 : isPfx httpMagic body = false := by simpa using hm
    simp [parseHttpResponse, hm2]

/-- Every element of a joined list appears contiguously in the join. -/
theorem mem_joinSep_infix (sep : List Char) :
    ∀ (ps : List (List Char)) (x : List Char), x ∈ ps →
      ∃ a b, joinSep sep ps = a ++ x ++ b := by
  intro ps
  induction ps with
  | nil => intro x hx; simp at hx
  | cons y r ih =>
    intro x hx
    cases r with
    | nil =>
      have hxy : x = y := by simpa using hx
      exact ⟨[], [], by simp [joinSep, hxy]⟩
    | cons z r2 =>
      rcases List.mem_cons.mp hx with hxy | hxr
      · exact ⟨[], sep ++ joinSep sep (z :: r2), by simp [joinSep, hxy]⟩
      · obtain ⟨a, b, hab⟩ := ih x hxr
        exact ⟨y ++ sep ++ a, b, by simp [joinSep, hab]⟩

/-- C1: for every outcome of the external record decoder (and hence for
every input byte buffer), the output row is either fully null or carries
both warc_version and warc_headers; no row has only a partial set of
WARC-level fields. -/
theorem warc_fields_all_or_nothing (d : Option WarcRecord) :
    toRow (parseWarcRecord d).1 = nullRow ∨
    ((toRow (parseWarcRecord d).1).warc_version.isSome = true ∧
     (toRow (parseWarcRecord d).1).warc_headers.isSome = true) := by
  cases d with
  | none => exact Or.inl rfl
  | some r =>
    cases hwt : r.warcType with
    | none => exact Or.inl (by simp [parseWarcRecord, hwt, toRow])
    | some wt =>
      refine Or.inr ?_
      simp only [parseWarcRecord, hwt]
      split <;> simp [toRow]

/-- C3: the Content-Length entry of the WARC header map is always
present, its value is the actual block length, and the map does not
depend on the declared Content-Length header of the record. -/
theorem content_length_computed (r : WarcRecord) :
    (∃ a b, headersToJson r = a ++ contentLengthEntry (warcContentLength r) ++ b) ∧
    ∀ d, headersToJson { r with declaredContentLength := d } = headersToJson r := by
  constructor
  · have hmem : contentLengthEntry (warcContentLength r) ∈ headersToJsonPairs r := by
      simp [headersToJsonPairs]
    obtain ⟨a, b, hab⟩ := mem_joinSep_infix [',', ' '] _ _ hmem
    refine ⟨lbrace :: a, b ++ [rbrace], ?_⟩
    simp [headersToJson, braceWrap, hab]
  · intro d
    rfl

/-- C5: the header/body separator is the first CRLFCRLF occurrence
anywhere in the body; only when none exists is the first LFLF occurrence
used; when neither occurs all four HTTP results are absent. -/
theorem separator_first_occurrence (body : List Nat) (sb : Bool) (i : Nat) :
    (firstOcc [13, 10, 13, 10] body i → separatorPos body = some (i, 4)) ∧
    (noOcc [13, 10, 13, 10] body → firstOcc [10, 10] body i →
      separatorPos body = some (i, 2)) ∧
    (noOcc [13, 10, 13, 10] body → noOcc [10, 10] body →
      separatorPos body = none ∧ parseHttpResponse body sb = ⟨none, none, none, none⟩) := by
  refine ⟨?_, ?_, ?_⟩
  · intro h
    have hf := (findPat_eq_some_iff [13, 10, 13, 10] (by simp) body i).mpr h
    simp [separatorPos, hf]
  · intro hn h
    have hf4 := (findPat_eq_none_iff [13, 10, 13, 10] (by simp) body).mpr hn
    have hf2 := (findPat_eq_some_iff [10, 10] (by simp) body i).mpr h
    simp [separatorPos, hf4, hf2]
  · intro hn4 hn2
    have hf4 := (findPat_eq_none_iff [13, 10, 13, 10] (by simp) body).mpr hn4
    have hf2 := (findPat_eq_none_iff [10, 10] (by simp) body).mpr hn2
    have hsep : separatorPos body = none := by simp [separatorPos, hf4, hf2]
    refine ⟨hsep, ?_⟩
    by_cases hm : isPfx httpMagic body = true
    · simp [parseHttpResponse, hm, hsep]
    · have hm2 : isPfx httpMagic body = false := by simpa using hm
      simp [parseHttpResponse, hm2]

/-- Witness for C5 at concrete inputs: a buffer whose first CRLFCRLF is
at index 1 even though an LFLF occurs inside it, and a buffer with no
separator at all. -/
theorem separator_first_occurrence_witness :
    separatorPos [65, 13, 10, 13, 10, 66] = some (1, 4) ∧
    (separatorPos [72, 84] = none ∧
      parseHttpResponse [72, 84] false = ⟨none, none, none, none⟩) :=
  ⟨(separator_first_occurrence [65, 13, 10, 13, 10, 66] false 1).1 (by decide),
   (separator_first_occurrence [72, 84] false 0).2.2 (by decide) (by decide)⟩

/-- C6: a body that does not start with the ASCII bytes of the HTTP
magic yields all four HTTP results absent, whatever the skip flag. -/
theorem non_http_magic_all_absent (body : List Nat) (sb : Bool)
    (h : isPfx httpMagic body = false) :
    parseHttpResponse body sb = ⟨none, none, none, none⟩ := by
  simp [parseHttpResponse, h]

/-- Witness for C6 at a concrete non-HTTP input. -/
theorem non_http_magic_all_absent_witness :
    parseHttpResponse (asciiBytes "Not HTTP data") false = ⟨none, none, none, none⟩ :=
  non_http_magic_all_absent (asciiBytes "Not HTTP data") false (by decide)

/-- C9: parsing a buffer that inflates to a valid non-gzip buffer gives
the same result as parsing that buffer directly, and the decompression
stage returns the inflated bytes exactly when inflation succeeds with a
non-empty result and the original buffer otherwise. -/
theorem gzip_roundtrip (inflate : List Nat → Option (List Nat))
    (decode : List Nat → Option WarcRecord) (g B : List Nat)
    (hg : inflate g = some B) (hne : B ≠ []) (hraw : inflate B = none) :
    pipelineParse inflate decode g = pipelineParse inflate decode B ∧
    decompressWith inflate g = B ∧
    (∀ x y, inflate x = some y → y ≠ [] → decompressWith inflate x = y) ∧
    (∀ x, inflate x = none → decompressWith inflate x = x) ∧
    (∀ x, inflate x = some [] → decompressWith inflate x = x) := by
  have h1 : decompressWith inflate g = B := by simp [decompressWith, hg, hne]
  have h2 : decompressWith inflate B = B := by simp [decompressWith, hraw]
  refine ⟨by simp [pipelineParse, h1, h2], h1, ?_, ?_, ?_⟩
  · intro x y hx hy
    simp [decompressWith, hx, hy]
  · intro x hx
    simp [decompressWith, hx]
  · intro x hx
    simp [decompressWith, hx]

/-- Witness for C9 with the toy collaborators at concrete buffers. -/
theorem gzip_roundtrip_witness :
    pipelineParse toyInflate toyDecode [9, 9] = pipelineParse toyInflate toyDecode [1, 2] ∧
    decompressWith toyInflate [9, 9] = [1, 2] :=
  ⟨(gzip_roundtrip toyInflate toyDecode [9, 9] [1, 2] (by decide) (by decide) (by decide)).1,
   (gzip_roundtrip toyInflate toyDecode [9, 9] [1, 2] (by decide) (by decide) (by decide)).2.1⟩

/-- C2: a response record whose body contains a NUL byte yields an
absent http_body while version, status and headers are exactly those of
the non-skipping HTTP parse, and one diagnostic event carrying the
target URI and identified payload type is emitted. -/
theorem binary_body_diagnostic (r : WarcRecord)
    (hresp : r.warcType = some ("response".toList))
    (hbin : r.body.contains 0 = true) :
    (parseWarcRecord (some r)).1 =
      some ⟨sanitizeForFFI r.version, sanitizeForFFI (headersToJson r),
        (parseHttpResponse r.body false).version,
        (parseHttpResponse r.body false).status,
        (parseHttpResponse r.body false).headers, none⟩ ∧
    (parseWarcRecord (some r)).2 =
      [⟨r.targetURI.getD [], r.identifiedPayloadType.getD []⟩] := by
  have hmem : 0 ∈ r.body := by simpa using hbin
  obtain ⟨hv, hst, hh⟩ := parseHttp_skip_invariant r.body true false
  have hb := parseHttp_skip_body_none r.body
  constructor
  · simp [parseWarcRecord, hresp, hmem, hv, hst, hh, hb]
  · simp [parseWarcRecord, hresp, hmem]

/-- Witness for C2 at the concrete binary-bodied record. -/
theorem binary_body_diagnostic_witness :
    (parseWarcRecord (some binRecord)).1 =
      some ⟨sanitizeForFFI binRecord.version, sanitizeForFFI (headersToJson binRecord),
        (parseHttpResponse binRecord.body false).version,
        (parseHttpResponse binRecord.body false).status,
        (parseHttpResponse binRecord.body false).headers, none⟩ ∧
    (parseWarcRecord (some binRecord)).2 =
      [⟨binRecord.targetURI.getD [], binRecord.identifiedPayloadType.getD []⟩] :=
  binary_body_diagnostic binRecord rfl (by decide)

/-- C7: when the second space-separated token of the status line does
not parse as an integer, the status result is absent and the other three
results take their usual values, unaffected by the failure. -/
theorem status_unparseable_independent (body : List Nat) (sb : Bool) (pos sl : Nat)
    (hm : isPfx httpMagic body = true)
    (hs : separatorPos body = some (pos, sl))
    (htok : (statusTokenAt body pos).bind parseI32 = none) :
    parseHttpResponse body sb =
      ⟨httpVersionAt body pos, none, httpHeadersAt body pos,
        if sb then none else some (body.drop (pos + sl))⟩ := by
  simp only [parseHttpResponse, hm, hs]
  cases hl : rustLines (utf8Lossy (body.take pos)) with
  | nil =>
    simp [hl, httpVersionAt, statusLineAt, httpHeadersAt, sanitizedHeaders,
      sanitizedHeaderPair, hm]
  | cons s rest =>
    have htok2 : ((splitnChar 3 ' ' s).get? 1).bind parseI32 = none := by
      simpa [statusTokenAt, statusLineAt, hl] using htok
    simp only [List.get?_eq_getElem?] at htok2
    simp [hl, httpVersionAt, statusLineAt, httpHeadersAt, sanitizedHeaders,
      sanitizedHeaderPair, htok2, hm]

/-- Witness for C7 at the concrete body with a non-numeric status token. -/
theorem status_unparseable_independent_witness :
    parseHttpResponse c7Body false =
      ⟨httpVersionAt c7Body 21, none, httpHeadersAt c7Body 21,
        if false then none else some (c7Body.drop (21 + 4))⟩ :=
  status_unparseable_independent c7Body false 21 4 (by decide) (by decide) (by decide)

/-- C8 counterexample: at a concrete response head whose header value
contains a double quote, the headers output differs from the encoding
that keeps the value as-is after trimming, because the code additionally
escapes the quote. -/
theorem header_value_as_is_cex :
    separatorPos c8Body = some (22, 2) ∧
    (parseHttpResponse c8Body false).headers ≠
      asIsHeaders ((rustLines (utf8Lossy (c8Body.take 22))).drop 1) := by decide

/-- C8 amended: every line after the status line is split on its first
colon; both sides are trimmed and NUL-stripped, the key is lower-cased,
double quotes on both sides are escaped; colon-free lines are skipped
and zero pairs give an absent result instead of an empty map. -/
theorem header_lines_sanitized (body : List Nat) (sb : Bool) (pos sl : Nat)
    (hm : isPfx httpMagic body = true) (hs : separatorPos body = some (pos, sl)) :
    (parseHttpResponse body sb).headers =
      sanitizedHeaders ((rustLines (utf8Lossy (body.take pos))).drop 1) := by
  simp [parseHttpResponse, hm, hs, sanitizedHeaders, sanitizedHeaderPair]

/-- Witness for the amended C8 at the concrete quote-valued body. -/
theorem header_lines_sanitized_witness :
    (parseHttpResponse c8Body false).headers =
      sanitizedHeaders ((rustLines (utf8Lossy (c8Body.take 22))).drop 1) :=
  header_lines_sanitized c8Body false 22 2 (by decide) (by decide)

/-- C10: whenever the body starts with the HTTP magic and a separator
exists, the version output is present. -/
theorem version_always_present (body : List Nat) (sb : Bool) (pos sl : Nat)
    (hm : isPfx httpMagic body = true) (hs : separatorPos body = some (pos, sl)) :
    (parseHttpResponse body sb).version.isSome = true := by
  obtain ⟨t, hbody⟩ : ∃ t, body = 72 :: t := by
    cases body with
    | nil => exact absurd hm (by simp [isPfx, httpMagic])
    | cons b t =>
      by_cases hb : (72 : Nat) = b
      · exact ⟨t, by rw [hb]⟩
      · rw [httpMagic, isPfx] at hm
        rw [if_neg hb] at hm
        simp at hm
  subst hbody
  have h4 : isPfx [13, 10, 13, 10] (72 :: t) = false := by simp [isPfx]
  have h2 : isPfx [10, 10] (72 :: t) = false := by simp [isPfx]
  have hpos : 0 < pos := by
    unfold separatorPos at hs
    rw [findPat, if_neg (by simp [h4])] at hs
    cases hf : findPat [13, 10, 13, 10] t with
    | some q =>
      rw [hf] at hs
      simp at hs
      omega
    | none =>
      rw [hf] at hs
      rw [findPat, if_neg (by simp [h2])] at hs
      cases hf2 : findPat [10, 10] t with
      | some q =>
        rw [hf2] at hs
        simp at hs
        omega
      | none =>
        rw [hf2] at hs
        simp at hs
  have htake : (72 :: t).take pos ≠ [] := by
    cases pos with
    | zero => omega
    | succ p => simp
  have hlines := rustLines_ne_nil (utf8Lossy_ne_nil htake)
  simp only [parseHttpResponse, hm, hs]
  cases hl : rustLines (utf8Lossy ((72 :: t).take pos)) with
  | nil => exact absurd hl hlines
  | cons s rest =>
    cases hsp : splitnChar 3 ' ' s with
    | nil => exact absurd hsp (splitnChar_ne_nil 2 ' ' s)
    | cons a r => simp [hl, hsp, hm]

/-- Witness for C10 at a concrete well-formed response head. -/
theorem version_always_present_witness :
    (parseHttpResponse c10Body false).version.isSome = true :=
  version_always_present c10Body false 15 4 (by decide) (by decide)

/-- The escaped form of a string never starts with a bare quote. -/
theorem escQ_head_ne_quote : ∀ (t : List Char) (d : Char) (X : List Char),
    escQ t = d :: X → d ≠ '\"' := by
  intro t d X h
  cases t with
  | nil => simp [escQ] at h
  | cons e t2 =>
    by_cases he : e = '\"'
    · simp only [escQ, he, if_pos] at h
      injection h with h1 _
      rw [← h1]
      decide
    · simp only [escQ, if_neg he] at h
      injection h with h1 _
      rw [← h1]
      exact he

/-- The escaped form is empty only for the empty string. -/
theorem escQ_eq_nil {t : List Char} (h : escQ t = []) : t = [] := by
  cases t with
  | nil => rfl
  | cons e t2 =>
    by_cases he : e = '\"' <;> simp [escQ, he] at h

/-- A bare quote is never an initial segment of an escaped string. -/
theorem isPfx_quote_escQ (t : List Char) : isPfx ['\"'] (escQ t) = false := by
  cases ht : escQ t with
  | nil => simp [isPfx]
  | cons d X =>
    have hd := escQ_head_ne_quote t d X ht
    simp [isPfx, Ne.symm hd]

/-- Every character of an escaped string is a backslash, a quote, or a
character of the original. -/
theorem mem_escQ {c : Char} : ∀ {v : List Char}, c ∈ escQ v →
    c = '\\' ∨ c = '\"' ∨ c ∈ v := by
  intro v
  induction v with
  | nil => intro h; simp [escQ] at h
  | cons e t ih =>
    intro h
    by_cases he : e = '\"'
    · simp only [escQ, he, if_pos] at h
      rcases List.mem_cons.mp h with h1 | h1
      · exact Or.inl h1
      · rcases List.mem_cons.mp h1 with h2 | h2
        · exact Or.inr (Or.inl h2)
        · rcases ih h2 with h3 | h3 | h3
          · exact Or.inl h3
          · exact Or.inr (Or.inl h3)
          · exact Or.inr (Or.inr (List.mem_cons_of_mem e h3))
    · simp only [escQ, if_neg he] at h
      rcases List.mem_cons.mp h with h1 | h1
      · exact Or.inr (Or.inr (by simp [h1]))
      · rcases ih h1 with h3 | h3 | h3
        · exact Or.inl h3
        · exact Or.inr (Or.inl h3)
        · exact Or.inr (Or.inr (List.mem_cons_of_mem e h3))

/-- Quote escaping of a NUL-free value is exactly `sanitize_header`. -/
theorem sanitizeHeader_eq_escQ {v : List Char} (hnn : nullChar ∉ v) :
    sanitizeHeader v = escQ v := by
  unfold sanitizeHeader
  rw [List.filter_eq_self]
  intro a ha
  have hane : a ≠ nullChar := by
    rcases mem_escQ ha with h | h | h
    · rw [h]; decide
    · rw [h]; decide
    · exact fun heq => hnn (heq ▸ h)
  simp [hane]

/-- No character-then-quote pair occurs inside an escaped string unless
the first character is a backslash. -/
theorem hasSub_escQ_quote (v : List Char) (x : Char) (hx : x ≠ '\\') :
    hasSub [x, '\"'] (escQ v) = false := by
  induction v with
  | nil => simp [escQ, hasSub, isPfx]
  | cons e t ih =>
    by_cases he : e = '\"'
    · simp only [escQ, he, if_pos, hasSub]
      have h1 : isPfx [x, '\"'] ('\\' :: '\"' :: escQ t) = false := by
        simp [isPfx, hx]
      have h2 : isPfx [x, '\"'] ('\"' :: escQ t) = false := by
        by_cases hxq : x = '\"'
        · simp [isPfx, hxq, isPfx_quote_escQ t]
        · simp [isPfx, hxq]
      simp [h1, h2, ih]
    · simp only [escQ, if_neg he, hasSub]
      have h1 : isPfx [x, '\"'] (e :: escQ t) = false := by
        by_cases hxe : x = e
        · simp [isPfx, hxe, he, isPfx_quote_escQ t]
        · simp [isPfx, hxe]
      simp [h1, ih]

/-- A list is an initial segment of itself followed by anything. -/
theorem isPfx_self_append {α : Type} [DecidableEq α] :
    ∀ (p b : List α), isPfx p (p ++ b) = true := by
  intro p
  induction p with
  | nil => intro b; simp [isPfx]
  | cons a p2 ih => intro b; simp [isPfx, ih]

/-- An initial-segment test only inspects as many characters as the
pattern is long. -/
theorem isPfx_append_long {α : Type} [DecidableEq α] :
    ∀ (p a b : List α), p.length ≤ a.length → isPfx p (a ++ b) = isPfx p a := by
  intro p
  induction p with
  | nil => intro a b _; simp [isPfx]
  | cons x p2 ih =>
    intro a b hlen
    cases a with
    | nil => simp at hlen
    | cons y a2 =>
      simp only [List.cons_append, isPfx]
      by_cases hxy : x = y
      · simp [hxy, ih a2 b (by simpa using hlen)]
      · simp [hxy]

/-- While skipping exactly the remaining separator characters, the
scanner just discards them. -/
theorem splitOnGo_skip {α : Type} [DecidableEq α] (sep : List α) :
    ∀ (zs ys acc : List α), splitOnGo sep zs.length acc (zs ++ ys) = splitOnGo sep 0 acc ys := by
  intro zs
  induction zs with
  | nil => intro ys acc; rfl
  | cons z zs2 ih =>
    intro ys acc
    simp only [List.cons_append, List.length_cons, splitOnGo]
    exact ih ys acc

/-- Splitting a string of the shape prefix-separator-rest, where no
occurrence of the separator starts inside the prefix, cuts exactly at
the separator. -/
theorem splitOnGo_append {α : Type} [DecidableEq α] (sep ys : List α) (hsep : sep ≠ []) :
    ∀ (xs acc : List α), noBnd sep xs = true →
      splitOnGo sep 0 acc (xs ++ sep ++ ys) = (acc.reverse ++ xs) :: splitOnGo sep 0 [] ys := by
  intro xs
  induction xs with
  | nil =>
    intro acc _
    cases sep with
    | nil => exact absurd rfl hsep
    | cons s0 sep2 =>
      rw [show ([] : List α) ++ (s0 :: sep2) ++ ys = s0 :: (sep2 ++ ys) by simp]
      have hself : isPfx (s0 :: sep2) (s0 :: (sep2 ++ ys)) = true := by
        have := isPfx_self_append (s0 :: sep2) ys
        simpa using this
      simp only [splitOnGo, hself, if_pos, List.length_cons, Nat.add_sub_cancel]
      rw [splitOnGo_skip (s0 :: sep2) sep2 ys []]
      simp
  | cons x xs2 ih =>
    intro acc hbnd
    simp only [noBnd, Bool.and_eq_true, Bool.not_eq_true'] at hbnd
    obtain ⟨hb1, hb2⟩ := hbnd
    have hpfx : isPfx sep (x :: (xs2 ++ (sep ++ ys))) = false := by
      have hlong := isPfx_append_long sep ((x :: xs2) ++ sep) ys (by simp; omega)
      rw [show ((x :: xs2) ++ sep) ++ ys = x :: (xs2 ++ (sep ++ ys)) by simp] at hlong
      rw [hlong]
      simpa using hb1
    have hstep : splitOnGo sep 0 acc (x :: (xs2 ++ (sep ++ ys))) =
        splitOnGo sep 0 (x :: acc) (xs2 ++ (sep ++ ys)) := by
      simp only [splitOnGo, hpfx]
      simp
    rw [show (x :: xs2) ++ sep ++ ys = x :: (xs2 ++ (sep ++ ys)) by simp]
    rw [hstep]
    rw [show xs2 ++ (sep ++ ys) = xs2 ++ sep ++ ys by simp]
    rw [ih (x :: acc) hb2]
    simp

/-- Splitting a string with no occurrence of the separator yields one
piece. -/
theorem splitOnGo_no_occurrence {α : Type} [DecidableEq α] (sep : List α) :
    ∀ (l acc : List α), hasSub sep l = false →
      splitOnGo sep 0 acc l = [acc.reverse ++ l] := by
  intro l
  induction l with
  | nil => intro acc _; simp [splitOnGo]
  | cons c t ih =>
    intro acc h
    simp only [hasSub, Bool.or_eq_false_iff] at h
    simp only [splitOnGo, h.1]
    simp only [if_false, Bool.false_eq_true]
    rw [ih (c :: acc) h.2]
    simp

/-- Matching a pattern against a list with the same head reduces to the
tails. -/
theorem isPfx_cons_same {α : Type} [DecidableEq α] (a : α) (p l : List α) :
    isPfx (a :: p) (a :: l) = isPfx p l := by
  simp [isPfx]

/-- Matching a pattern against a list with a different head fails. -/
theorem isPfx_cons_diff {α : Type} [DecidableEq α] {a b : α} (h : a ≠ b) (p l : List α) :
    isPfx (a :: p) (b :: l) = false := by
  simp [isPfx, h]

/-- If a concatenation is an initial segment, its second part occurs
somewhere in the list. -/
theorem isPfx_append_hasSub {α : Type} [DecidableEq α] :
    ∀ (p q l : List α), isPfx (p ++ q) l = true → hasSub q l = true := by
  intro p
  induction p with
  | nil =>
    intro q l h
    simp only [List.nil_append] at h
    cases l with
    | nil => simpa [hasSub] using h
    | cons c t => simp [hasSub, h]
  | cons a p2 ih =>
    intro q l h
    cases l with
    | nil => simp [isPfx] at h
    | cons c t =>
      simp only [List.cons_append, isPfx] at h
      by_cases hac : a = c
      · rw [if_pos hac] at h
        have := ih q t h
        simp [hasSub, this]
      · rw [if_neg hac] at h
        simp at h

/-- Any occurrence of a concatenated pattern contains an occurrence of
its tail part. -/
theorem hasSub_suffix {α : Type} [DecidableEq α] (p q : List α) :
    ∀ l, hasSub (p ++ q) l = true → hasSub q l = true := by
  intro l
  induction l with
  | nil =>
    intro h
    simp only [hasSub] at h ⊢
    exact isPfx_append_hasSub p q [] h
  | cons c t ih =>
    intro h
    simp only [hasSub, Bool.or_eq_true] at h
    rcases h with h | h
    · exact isPfx_append_hasSub p q (c :: t) h
    · have := ih h
      simp [hasSub, this]

/-- The quote colon space quote pattern never occurs inside an escaped
string: every quote in it follows a backslash. -/
theorem hasSub_colonPat_escQ (v : List Char) : hasSub patQColonQ (escQ v) = false := by
  cases hb : hasSub patQColonQ (escQ v) with
  | false => rfl
  | true =>
    have h1 : hasSub [' ', '\"'] (escQ v) = true := by
      have := hasSub_suffix ['\"', ':'] [' ', '\"'] (escQ v)
      simp only [patQColonQ] at hb
      exact this (by simpa using hb)
    have h2 := hasSub_escQ_quote v ' ' (by decide)
    rw [h2] at h1
    simp at h1

/-- The tail of the quote comma space quote pattern never begins at the
start of an escaped value followed by the pattern itself, except for the
excluded comma-space value. -/
theorem escQ_midPfx_false (w : List Char) (hw : w ≠ [',', ' ']) :
    isPfx [',', ' ', '\"'] (escQ w ++ patQCommaQ) = false := by
  cases w with
  | nil => simp [escQ, patQCommaQ, isPfx]
  | cons c t =>
    by_cases hc : c = '\"'
    · simp [escQ, hc, patQCommaQ, isPfx]
    · simp only [escQ, if_neg hc]
      by_cases hcc : c = ','
      · subst hcc
        rw [show (',' :: escQ t) ++ patQCommaQ = ',' :: (escQ t ++ patQCommaQ) by simp,
          isPfx_cons_same]
        cases t with
        | nil => simp [escQ, patQCommaQ, isPfx]
        | cons d t2 =>
          by_cases hd : d = '\"'
          · simp [escQ, hd, patQCommaQ, isPfx]
          · simp only [escQ, if_neg hd]
            by_cases hds : d = ' '
            · subst hds
              rw [show (' ' :: escQ t2) ++ patQCommaQ = ' ' :: (escQ t2 ++ patQCommaQ) by simp,
                isPfx_cons_same]
              cases ht2 : escQ t2 with
              | nil =>
                have : t2 = [] := escQ_eq_nil ht2
                subst this
                exact absurd rfl hw
              | cons d2 X =>
                have hd2 := escQ_head_ne_quote t2 d2 X ht2
                rw [show (d2 :: X) ++ patQCommaQ = d2 :: (X ++ patQCommaQ) by simp,
                  isPfx_cons_diff (Ne.symm hd2)]
            · rw [show (d :: escQ t2) ++ patQCommaQ = d :: (escQ t2 ++ patQCommaQ) by simp,
                isPfx_cons_diff (fun he => hds he.symm)]
      · rw [show (c :: escQ t) ++ patQCommaQ = c :: (escQ t ++ patQCommaQ) by simp,
          isPfx_cons_diff (fun he => hcc he.symm)]

/-- No occurrence of the quote comma space quote pattern starts inside
the escaped value followed by the pattern, unless the original value
ends in quote comma space. -/
theorem noBnd_escQ (v : List Char) (hend : ¬ (['\"', ',', ' '] <:+ v)) :
    noBnd patQCommaQ (escQ v) = true := by
  induction v with
  | nil => simp [escQ, noBnd]
  | cons c t ih =>
    have hendt : ¬ (['\"', ',', ' '] <:+ t) := by
      intro h
      exact hend (h.trans (List.suffix_cons c t))
    by_cases hc : c = '\"'
    · simp only [escQ, hc, if_pos, noBnd]
      have h1 : isPfx patQCommaQ (('\\' :: '\"' :: escQ t) ++ patQCommaQ) = false := by
        rw [show ('\\' :: '\"' :: escQ t) ++ patQCommaQ =
          '\\' :: ('\"' :: escQ t ++ patQCommaQ) by simp]
        exact isPfx_cons_diff (by decide) _ _
      have h2 : isPfx patQCommaQ (('\"' :: escQ t) ++ patQCommaQ) = false := by
        have ht2 : t ≠ [',', ' '] := by
          intro he
          subst he
          subst hc
          exact hend (by simp)
        rw [show ('\"' :: escQ t) ++ patQCommaQ = '\"' :: (escQ t ++ patQCommaQ) by simp]
        rw [show patQCommaQ = '\"' :: [',', ' ', '\"'] from rfl, isPfx_cons_same]
        exact escQ_midPfx_false t ht2
      simp only [noBnd, List.cons_append] at h1 h2 ⊢
      simp [h1, h2, ih hendt]
    · simp only [escQ, if_neg hc, noBnd]
      have h1 : isPfx patQCommaQ ((c :: escQ t) ++ patQCommaQ) = false := by
        rw [show (c :: escQ t) ++ patQCommaQ = c :: (escQ t ++ patQCommaQ) by simp]
        exact isPfx_cons_diff (fun he => hc he.symm) _ _
      simp only [List.cons_append] at h1 ⊢
      simp [h1, ih hendt]

/-- Unescaping inverts quote escaping on every value. -/
theorem unescQ_escQ : ∀ v : List Char, unescQ (escQ v) = v := by
  intro v
  induction v with
  | nil => simp [escQ, unescQ]
  | cons c t ih =>
    by_cases hc : c = '\"'
    · simp only [escQ, hc, if_pos]
      simp [unescQ, ih]
    · simp only [escQ, if_neg hc]
      cases ht : escQ t with
      | nil =>
        have h0 : t = [] := escQ_eq_nil ht
        subst h0
        simp [unescQ]
      | cons d X =>
        have hd := escQ_head_ne_quote t d X ht
        have hcond : ¬ (c = '\\' ∧ d = '\"') := fun h => hd h.2
        calc unescQ (c :: d :: X) = c :: unescQ (d :: X) := by simp [unescQ, hcond]
        _ = c :: unescQ (escQ t) := by rw [← ht]
        _ = c :: t := by rw [ih]

/-- The digits of a number contain no NUL character. -/
theorem natDigits_no_null (n : Nat) : nullChar ∉ natDigits n := by
  have hgo : ∀ (fuel m : Nat) (acc : List Char), nullChar ∉ acc →
      nullChar ∉ natDigitsGo fuel m acc := by
    intro fuel
    induction fuel with
    | zero => intro m acc hacc; simpa [natDigitsGo] using hacc
    | succ f ih =>
      intro m acc hacc
      have hd : Char.ofNat (48 + m % 10) ≠ nullChar := by
        have h10 : m % 10 < 10 := Nat.mod_lt _ (by omega)
        set k := m % 10 with hk
        interval_cases k <;> decide
      simp only [natDigitsGo]
      split
      · simp only [List.mem_cons]
        rintro (h | h)
        · exact hd h.symm
        · exact hacc h
      · exact ih (m / 10) _ (by
          simp only [List.mem_cons]
          rintro (h | h)
          · exact hd h.symm
          · exact hacc h)
  exact hgo (n + 1) n [] (by simp)

/-- Every character of a join comes from the separator or from one of
the pieces. -/
theorem mem_joinSep {c : Char} (sep : List Char) :
    ∀ ps, c ∈ joinSep sep ps → c ∈ sep ∨ ∃ p ∈ ps, c ∈ p := by
  intro ps
  induction ps with
  | nil => intro h; simp [joinSep] at h
  | cons x r ih =>
    intro h
    cases r with
    | nil =>
      simp only [joinSep] at h
      exact Or.inr ⟨x, by simp, h⟩
    | cons y r2 =>
      simp only [joinSep, List.append_assoc, List.mem_append] at h
      rcases h with h | h | h
      · exact Or.inr ⟨x, by simp, h⟩
      · exact Or.inl h
      · rcases ih h with h2 | ⟨p, hp, hc⟩
        · exact Or.inl h2
        · exact Or.inr ⟨p, List.mem_cons_of_mem x hp, hc⟩

/-- An optional pair is always an encoded pair of its key and a
sanitized value. -/
theorem mem_optPair {k : List Char} {o : Option (List Char)} {p : List Char}
    (h : p ∈ optPair k o) : ∃ u, p = pairStr k (sanitizeHeader u) := by
  cases o with
  | none => simp [optPair] at h
  | some w =>
    refine ⟨w, ?_⟩
    simpa [optPair] using h

/-- A NUL-free pair of lists concatenates to a NUL-free list. -/
theorem no_null_append {a b : List Char} (ha : nullChar ∉ a) (hb : nullChar ∉ b) :
    nullChar ∉ a ++ b := by
  simp [List.mem_append, ha, hb]

/-- A sanitized header value has no NUL character. -/
theorem sanitizeHeader_no_null (u : List Char) : nullChar ∉ sanitizeHeader u := by
  intro h
  rcases List.mem_filter.mp h with ⟨-, h2⟩
  simp at h2

/-- An encoded pair with a NUL-free key has no NUL character. -/
theorem pairStr_san_no_null (k u : List Char) (hk : nullChar ∉ k) :
    nullChar ∉ pairStr k (sanitizeHeader u) := by
  unfold pairStr
  refine no_null_append (no_null_append (no_null_append (no_null_append ?_ hk) ?_)
    (sanitizeHeader_no_null u)) ?_
  · decide
  · decide
  · decide

/-- The always-present Content-Length entry has no NUL character. -/
theorem contentLengthEntry_no_null (n : Nat) : nullChar ∉ contentLengthEntry n := by
  unfold contentLengthEntry
  refine no_null_append (no_null_append (no_null_append ?_ ?_) ?_) (natDigits_no_null n)
  · decide
  · decide
  · decide

/-- Every entry of the WARC header pair list has no NUL character. -/
theorem headersToJsonPairs_no_null (r : WarcRecord) :
    ∀ p ∈ headersToJsonPairs r, nullChar ∉ p := by
  intro p hp
  unfold headersToJsonPairs at hp
  simp only [List.append_assoc] at hp
  rcases List.mem_append.mp hp with h | hp
  · obtain ⟨u, rfl⟩ := mem_optPair h; exact pairStr_san_no_null _ u (by decide)
  rcases List.mem_append.mp hp with h | hp
  · obtain ⟨u, rfl⟩ := mem_optPair h; exact pairStr_san_no_null _ u (by decide)
  rcases List.mem_append.mp hp with h | hp
  · obtain ⟨u, rfl⟩ := mem_optPair h; exact pairStr_san_no_null _ u (by decide)
  rcases List.mem_append.mp hp with h | hp
  · obtain ⟨u, rfl⟩ := mem_optPair h; exact pairStr_san_no_null _ u (by decide)
  rcases List.mem_append.mp hp with h | hp
  · obtain ⟨u, rfl⟩ := mem_optPair h; exact pairStr_san_no_null _ u (by decide)
  rcases List.mem_append.mp hp with h | hp
  · obtain ⟨u, rfl⟩ := mem_optPair h; exact pairStr_san_no_null _ u (by decide)
  rcases List.mem_append.mp hp with h | hp
  · have : p = contentLengthEntry (warcContentLength r) := by simpa using h
    rw [this]; exact contentLengthEntry_no_null _
  rcases List.mem_append.mp hp with h | hp
  · obtain ⟨u, rfl⟩ := mem_optPair h; exact pairStr_san_no_null _ u (by decide)
  rcases List.mem_append.mp hp with h | hp
  · obtain ⟨u, rfl⟩ := mem_optPair h; exact pairStr_san_no_null _ u (by decide)
  · obtain ⟨u, rfl⟩ := mem_optPair hp; exact pairStr_san_no_null _ u (by decide)

/-- Every entry of the WARC header pair list starts with a quote. -/
theorem headersToJsonPairs_quote (r : WarcRecord) :
    ∀ p ∈ headersToJsonPairs r, ∃ t2, p = '\"' :: t2 := by
  intro p hp
  unfold headersToJsonPairs at hp
  simp only [List.append_assoc] at hp
  rcases List.mem_append.mp hp with h | hp
  · obtain ⟨u, rfl⟩ := mem_optPair h; exact ⟨_, rfl⟩
  rcases List.mem_append.mp hp with h | hp
  · obtain ⟨u, rfl⟩ := mem_optPair h; exact ⟨_, rfl⟩
  rcases List.mem_append.mp hp with h | hp
  · obtain ⟨u, rfl⟩ := mem_optPair h; exact ⟨_, rfl⟩
  rcases List.mem_append.mp hp with h | hp
  · obtain ⟨u, rfl⟩ := mem_optPair h; exact ⟨_, rfl⟩
  rcases List.mem_append.mp hp with h | hp
  · obtain ⟨u, rfl⟩ := mem_optPair h; exact ⟨_, rfl⟩
  rcases List.mem_append.mp hp with h | hp
  · obtain ⟨u, rfl⟩ := mem_optPair h; exact ⟨_, rfl⟩
  rcases List.mem_append.mp hp with h | hp
  · have hcl : p = contentLengthEntry (warcContentLength r) := by simpa using h
    exact ⟨_, by rw [hcl]; rfl⟩
  rcases List.mem_append.mp hp with h | hp
  · obtain ⟨u, rfl⟩ := mem_optPair h; exact ⟨_, rfl⟩
  rcases List.mem_append.mp hp with h | hp
  · obtain ⟨u, rfl⟩ := mem_optPair h; exact ⟨_, rfl⟩
  · obtain ⟨u, rfl⟩ := mem_optPair hp; exact ⟨_, rfl⟩

/-- The encoded WARC header map has no NUL character. -/
theorem headersToJson_no_null (r : WarcRecord) : nullChar ∉ headersToJson r := by
  unfold headersToJson braceWrap
  intro h
  rcases List.mem_cons.mp h with h | h
  · exact absurd h (by decide)
  rcases List.mem_append.mp h with h | h
  · rcases mem_joinSep [',', ' '] _ h with h2 | ⟨p, hp, hc⟩
    · exact absurd h2 (by decide)
    · exact headersToJsonPairs_no_null r p hp hc
  · exact absurd h (by decide)

/-- General sanitization does not change the already NUL-free encoded
WARC header map. -/
theorem sanitizeForFFI_headersToJson (r : WarcRecord) :
    sanitizeForFFI (headersToJson r) = headersToJson r := by
  unfold sanitizeForFFI
  rw [List.filter_eq_self]
  intro a ha
  have hne : a ≠ nullChar := fun he => headersToJson_no_null r (he ▸ ha)
  simp [hne]

/-- The join of pieces whose first piece starts with a quote starts with
a quote. -/
theorem joinSep_head_quote (s : List Char) (qt : List Char) (rs : List (List Char)) :
    ∃ Jt, joinSep s (('\"' :: qt) :: rs) = '\"' :: Jt := by
  cases rs with
  | nil => exact ⟨qt, rfl⟩
  | cons y rs2 => exact ⟨qt ++ s ++ joinSep s (y :: rs2), by simp [joinSep]⟩

/-- An entry of an optional header is keyed by that header's name and
holds its value. -/
theorem mem_optEntry {k : List Char} {o : Option (List Char)}
    {e : List Char × List Char} (h : e ∈ optEntry k o) : e.1 = k ∧ o = some e.2 := by
  cases o with
  | none => simp [optEntry] at h
  | some u =>
    simp only [optEntry, List.mem_singleton] at h
    subst h
    exact ⟨rfl, rfl⟩

/-- Every key of the quoted-entry list is one of six fixed literals, so
none of its characters is a quote, a comma or a colon. -/
theorem warcQuotedEntries_key (r : WarcRecord) :
    ∀ e ∈ warcQuotedEntries r, ∀ c ∈ e.1, c ≠ '\"' ∧ c ≠ ',' ∧ c ≠ ':' := by
  intro e he
  unfold warcQuotedEntries at he
  simp only [List.append_assoc] at he
  rcases List.mem_append.mp he with h | he
  · rw [(mem_optEntry h).1]; decide
  rcases List.mem_append.mp he with h | he
  · rw [(mem_optEntry h).1]; decide
  rcases List.mem_append.mp he with h | he
  · rw [(mem_optEntry h).1]; decide
  rcases List.mem_append.mp he with h | he
  · rw [(mem_optEntry h).1]; decide
  rcases List.mem_append.mp he with h | he
  · rw [(mem_optEntry h).1]; decide
  · rw [(mem_optEntry he).1]; decide

/-- An encoded pair starts with a quote. -/
theorem pairStr_head (k v : List Char) : ∃ t, pairStr k v = '\"' :: t :=
  ⟨k ++ ['\"', ':', ' ', '\"'] ++ v ++ ['\"'], by simp [pairStr]⟩

/-- The Content-Length entry starts with a quote. -/
theorem contentLengthEntry_head (n : Nat) : ∃ t, contentLengthEntry n = '\"' :: t :=
  ⟨"Content-Length".toList ++ ['\"', ':', ' '] ++ natDigits n, by simp [contentLengthEntry]⟩

/-- Rendering one optional entry as an encoded pair gives exactly the
corresponding optional pair of the map. -/
theorem optEntry_map_pair (k : List Char) (o : Option (List Char)) :
    (optEntry k o).map (fun e => pairStr e.1 (sanitizeHeader e.2)) = optPair k o := by
  cases o <;> rfl

/-- The encoded pair list is the rendered quoted entries followed by the
Content-Length entry and the trailing optional digest pairs. -/
theorem headersToJsonPairs_decomp (r : WarcRecord) :
    headersToJsonPairs r =
      (warcQuotedEntries r).map (fun e => pairStr e.1 (sanitizeHeader e.2)) ++
      (contentLengthEntry (warcContentLength r) ::
        (optPair ("WARC-Payload-Digest".toList) r.payloadDigest ++
         optPair ("WARC-Block-Digest".toList) r.blockDigest ++
         optPair ("WARC-Identified-Payload-Type".toList) r.identifiedPayloadType)) := by
  unfold headersToJsonPairs warcQuotedEntries
  simp [List.map_append, optEntry_map_pair, List.append_assoc]

/-- Prepending characters different from the separator's first element
preserves the absence of boundary-straddling separator occurrences. -/
theorem noBnd_no_first {α : Type} [DecidableEq α] (s0 : α) (sp : List α) :
    ∀ (ks l : List α), (∀ c ∈ ks, c ≠ s0) → noBnd (s0 :: sp) l = true →
      noBnd (s0 :: sp) (ks ++ l) = true := by
  intro ks
  induction ks with
  | nil => intro l _ hl; simpa using hl
  | cons c t ih =>
    intro l hk hl
    have hc : c ≠ s0 := hk c (by simp)
    have hpfx : isPfx (s0 :: sp) ((c :: (t ++ l)) ++ (s0 :: sp)) = false := by
      rw [show (c :: (t ++ l)) ++ (s0 :: sp) = c :: ((t ++ l) ++ (s0 :: sp)) by simp]
      exact isPfx_cons_diff (Ne.symm hc) _ _
    rw [show (c :: t) ++ l = c :: (t ++ l) by simp]
    simp only [noBnd, hpfx]
    simp [ih l (fun x hx => hk x (by simp [hx])) hl]

/-- A quote-free string has no boundary-straddling occurrence of the
quote colon space quote pattern. -/
theorem noBnd_colon_key (ks : List Char) (hk : ∀ c ∈ ks, c ≠ '\"') :
    noBnd patQColonQ ks = true := by
  have h := noBnd_no_first '\"' [':', ' ', '\"'] ks [] hk rfl
  simpa [patQColonQ] using h

/-- No occurrence of the quote comma space quote pattern straddles the
quote colon space quote separator and escaped value of an encoded pair,
when the value does not end in quote comma space and is not the
two-character comma space string. -/
theorem noBnd_comma_core (v : List Char) (hend : ¬ (['\"', ',', ' '] <:+ v))
    (hvne : v ≠ [',', ' ']) :
    noBnd patQCommaQ (['\"', ':', ' ', '\"'] ++ escQ v) = true := by
  have hKP := escQ_midPfx_false v hvne
  have hK2 := noBnd_escQ v hend
  simp only [noBnd, patQCommaQ, List.cons_append, isPfx] at hKP hK2 ⊢
  simp [hKP, hK2]

/-- No occurrence of the quote comma space quote pattern starts inside
the interior of an encoded pair with a quote-free key and a well-behaved
value. -/
theorem noBnd_mid_entry (e : List Char × List Char) (hk : ∀ c ∈ e.1, c ≠ '\"')
    (hend : ¬ (['\"', ',', ' '] <:+ e.2)) (hvne : e.2 ≠ [',', ' ']) :
    noBnd patQCommaQ (entryPiece e) = true := by
  show noBnd ('\"' :: [',', ' ', '\"']) (e.1 ++ (['\"', ':', ' ', '\"'] ++ escQ e.2)) = true
  exact noBnd_no_first '\"' [',', ' ', '\"'] e.1 (['\"', ':', ' ', '\"'] ++ escQ e.2) hk
    (noBnd_comma_core e.2 hend hvne)

/-- No occurrence of the quote comma space quote pattern starts inside
the opening bracket, key quote and interior of the first encoded pair of
the map. -/
theorem noBnd_head_entry (e : List Char × List Char)
    (hk : ∀ c ∈ e.1, c ≠ '\"' ∧ c ≠ ',')
    (hend : ¬ (['\"', ',', ' '] <:+ e.2)) (hvne : e.2 ≠ [',', ' ']) :
    noBnd patQCommaQ (lbrace :: '\"' :: entryPiece e) = true := by
  have hmid : noBnd patQCommaQ (entryPiece e) = true :=
    noBnd_mid_entry e (fun c hc => (hk c hc).1) hend hvne
  have h0 : isPfx patQCommaQ ((lbrace :: '\"' :: entryPiece e) ++ patQCommaQ) = false := by
    rw [show (lbrace :: '\"' :: entryPiece e) ++ patQCommaQ =
      lbrace :: ('\"' :: entryPiece e ++ patQCommaQ) by simp]
    rw [show patQCommaQ = '\"' :: [',', ' ', '\"'] from rfl]
    exact isPfx_cons_diff (by decide) _ _
  have h1 : isPfx patQCommaQ (('\"' :: entryPiece e) ++ patQCommaQ) = false := by
    rw [show ('\"' :: entryPiece e) ++ patQCommaQ = '\"' :: (entryPiece e ++ patQCommaQ) by simp]
    rw [show patQCommaQ = '\"' :: [',', ' ', '\"'] from rfl, isPfx_cons_same]
    cases he1 : e.1 with
    | nil => simp [entryPiece, he1, isPfx]
    | cons c t =>
      have hc : c ≠ ',' := (hk c (by simp [he1])).2
      rw [show entryPiece e ++ '\"' :: [',', ' ', '\"'] =
        c :: ((t ++ (['\"', ':', ' ', '\"'] ++ escQ e.2)) ++ '\"' :: [',', ' ', '\"']) by
          simp [entryPiece, he1]]
      exact isPfx_cons_diff (fun h2 => hc h2.symm) _ _
  simp only [noBnd]
  rw [h0, h1, hmid]
  rfl

/-- No occurrence of the quote colon space quote pattern starts inside
the opening bracket, key quote and key of the first encoded pair. -/
theorem noBnd_head_colon (ks : List Char) (hk : ∀ c ∈ ks, c ≠ '\"' ∧ c ≠ ':') :
    noBnd patQColonQ (lbrace :: '\"' :: ks) = true := by
  have hmid : noBnd patQColonQ ks = true := noBnd_colon_key ks (fun c hc => (hk c hc).1)
  have h0 : isPfx patQColonQ ((lbrace :: '\"' :: ks) ++ patQColonQ) = false := by
    rw [show (lbrace :: '\"' :: ks) ++ patQColonQ = lbrace :: ('\"' :: ks ++ patQColonQ) by simp]
    rw [show patQColonQ = '\"' :: [':', ' ', '\"'] from rfl]
    exact isPfx_cons_diff (by decide) _ _
  have h1 : isPfx patQColonQ (('\"' :: ks) ++ patQColonQ) = false := by
    rw [show ('\"' :: ks) ++ patQColonQ = '\"' :: (ks ++ patQColonQ) by simp]
    rw [show patQColonQ = '\"' :: [':', ' ', '\"'] from rfl, isPfx_cons_same]
    cases ks with
    | nil => decide
    | cons c t =>
      have hc : c ≠ ':' := (hk c (by simp)).2
      rw [show (c :: t) ++ '\"' :: [':', ' ', '\"'] =
        c :: (t ++ '\"' :: [':', ' ', '\"']) by simp]
      exact isPfx_cons_diff (fun h2 => hc h2.symm) _ _
  simp only [noBnd]
  rw [h0, h1, hmid]
  rfl

/-- Appending to a separator chain appends inside its tail. -/
theorem sepChain_append {α : Type} (sep : List α) :
    ∀ (xs : List (List α)) (T extra : List α),
      sepChain sep xs T ++ extra = sepChain sep xs (T ++ extra) := by
  intro xs
  induction xs with
  | nil => intro T extra; rfl
  | cons x xs2 ih =>
    intro T extra
    simp only [sepChain, List.append_assoc, ih]

/-- Splitting a separator chain whose pieces carry no
boundary-straddling occurrence yields those pieces followed by the split
of the tail. -/
theorem splitOnL_sepChain {α : Type} [DecidableEq α] (sep : List α) (hsep : sep ≠ []) :
    ∀ (xs : List (List α)) (tail : List α), (∀ x ∈ xs, noBnd sep x = true) →
      splitOnL sep (sepChain sep xs tail) = xs ++ splitOnL sep tail := by
  intro xs
  induction xs with
  | nil => intro tail _; rfl
  | cons x xs2 ih =>
    intro tail hbnd
    show splitOnL sep (x ++ sep ++ sepChain sep xs2 tail) = (x :: xs2) ++ splitOnL sep tail
    unfold splitOnL
    rw [splitOnGo_append sep (sepChain sep xs2 tail) hsep x [] (hbnd x (by simp))]
    have h2 := ih tail (fun y hy => hbnd y (by simp [hy]))
    unfold splitOnL at h2
    rw [h2]
    simp

/-- Splitting the interior of an encoded pair with a quote-free key on
the quote colon space quote pattern yields the key and the escaped
value. -/
theorem splitColon_mid (e : List Char × List Char) (hk : ∀ c ∈ e.1, c ≠ '\"') :
    splitOnL patQColonQ (entryPiece e) = [e.1, escQ e.2] := by
  have hshape : entryPiece e = e.1 ++ patQColonQ ++ escQ e.2 := by
    simp [entryPiece, patQColonQ, List.append_assoc]
  rw [hshape]
  unfold splitOnL
  rw [splitOnGo_append patQColonQ (escQ e.2) (by decide) e.1 [] (noBnd_colon_key e.1 hk)]
  rw [splitOnGo_no_occurrence patQColonQ (escQ e.2) [] (hasSub_colonPat_escQ e.2)]
  simp

/-- Splitting the first piece of the encoded map on the quote colon
space quote pattern yields the bracketed key part and the escaped
value. -/
theorem splitColon_head (e : List Char × List Char)
    (hk : ∀ c ∈ e.1, c ≠ '\"' ∧ c ≠ ':') :
    splitOnL patQColonQ (lbrace :: '\"' :: entryPiece e) =
      [lbrace :: '\"' :: e.1, escQ e.2] := by
  have hshape : lbrace :: '\"' :: entryPiece e =
      (lbrace :: '\"' :: e.1) ++ patQColonQ ++ escQ e.2 := by
    simp [entryPiece, patQColonQ, List.append_assoc]
  rw [hshape]
  unfold splitOnL
  rw [splitOnGo_append patQColonQ (escQ e.2) (by decide) (lbrace :: '\"' :: e.1) []
    (noBnd_head_colon e.1 hk)]
  rw [splitOnGo_no_occurrence patQColonQ (escQ e.2) [] (hasSub_colonPat_escQ e.2)]
  simp

/-- Joining rendered NUL-free entries followed by further quote-headed
pairs produces a quote followed by a separator chain of the entry
interiors. -/
theorem joinSep_pairs_chain :
    ∀ (es : List (List Char × List Char)) (rest : List (List Char)),
      (∀ e ∈ es, nullChar ∉ e.2) → rest ≠ [] →
      (∀ p ∈ rest, ∃ t, p = '\"' :: t) →
      ∃ T, joinSep [',', ' ']
          (es.map (fun e => pairStr e.1 (sanitizeHeader e.2)) ++ rest) =
        '\"' :: sepChain patQCommaQ (es.map entryPiece) T := by
  intro es
  induction es with
  | nil =>
    intro rest _ hne hq
    obtain ⟨p, rest2, hpr⟩ : ∃ p rest2, rest = p :: rest2 := by
      cases rest with
      | nil => exact absurd rfl hne
      | cons p r2 => exact ⟨p, r2, rfl⟩
    subst hpr
    obtain ⟨t, ht⟩ := hq p (by simp)
    subst ht
    obtain ⟨Jt, hJ⟩ := joinSep_head_quote [',', ' '] t rest2
    exact ⟨Jt, by simpa [sepChain] using hJ⟩
  | cons e es2 ih =>
    intro rest hnn hne hq
    obtain ⟨T, hT⟩ := ih rest (fun x hx => hnn x (by simp [hx])) hne hq
    obtain ⟨y, l, hyl⟩ : ∃ y l,
        es2.map (fun x => pairStr x.1 (sanitizeHeader x.2)) ++ rest = y :: l := by
      cases h : es2.map (fun x => pairStr x.1 (sanitizeHeader x.2)) ++ rest with
      | nil =>
        rcases List.append_eq_nil.mp h with ⟨-, h2⟩
        exact absurd h2 hne
      | cons y l => exact ⟨y, l, rfl⟩
    refine ⟨T, ?_⟩
    rw [show (e :: es2).map (fun x => pairStr x.1 (sanitizeHeader x.2)) ++ rest =
      pairStr e.1 (sanitizeHeader e.2) ::
        (es2.map (fun x => pairStr x.1 (sanitizeHeader x.2)) ++ rest) by simp]
    rw [hyl]
    simp only [joinSep]
    rw [← hyl, hT]
    rw [sanitizeHeader_eq_escQ (hnn e (by simp))]
    simp [pairStr, entryPiece, patQCommaQ, sepChain, List.append_assoc]

/-- C4 amended: for any string-valued header serialized before the
always-present Content-Length entry (WARC-Type, WARC-Date,
WARC-Record-ID, WARC-Target-URI, WARC-IP-Address or Content-Type), if
its value contains a double quote, contains no NUL, and does not end in
quote comma space, and every earlier present value among these headers
likewise contains no NUL, does not end in quote comma space and is not
the two-character comma space string, then splitting the produced
warc_headers string on the two spec patterns at the header's index and
unescaping recovers the original value. -/
theorem header_quote_recovery_amended (r : WarcRecord) (k : Nat) (key v w : List Char)
    (hw : r.warcType = some w)
    (hk : (warcQuotedEntries r).get? k = some (key, v))
    (hq : '\"' ∈ v) (hnn : nullChar ∉ v) (hend : ¬ (['\"', ',', ' '] <:+ v))
    (hclean : ∀ e ∈ (warcQuotedEntries r).take k,
      nullChar ∉ e.2 ∧ ¬ (['\"', ',', ' '] <:+ e.2) ∧ e.2 ≠ [',', ' ']) :
    (parseWarcRecord (some r)).1.map (fun pr => recoverValueAt k pr.warc_headers) =
      some (some v) := by
  have hvne : v ≠ [',', ' '] := by
    intro he
    rw [he] at hq
    exact absurd hq (by decide)
  have hklen : k < (warcQuotedEntries r).length := by
    by_contra hle
    rw [List.get?_eq_none.mpr (Nat.le_of_not_lt hle)] at hk
    exact Option.noConfusion hk
  have htake : (warcQuotedEntries r).take (k + 1) =
      (warcQuotedEntries r).take k ++ [(key, v)] := by
    rw [List.take_succ, ← List.get?_eq_getElem?, hk]
    rfl
  have hclean1 : ∀ e ∈ (warcQuotedEntries r).take (k + 1),
      nullChar ∉ e.2 ∧ ¬ (['\"', ',', ' '] <:+ e.2) ∧ e.2 ≠ [',', ' '] := by
    intro e he
    rw [htake] at he
    rcases List.mem_append.mp he with h | h
    · exact hclean e h
    · have he2 : e = (key, v) := by simpa using h
      rw [he2]
      exact ⟨hnn, hend, hvne⟩
  obtain ⟨e0, ts, hts⟩ : ∃ e0 ts, (warcQuotedEntries r).take (k + 1) = e0 :: ts := by
    cases h : (warcQuotedEntries r).take (k + 1) with
    | nil =>
      have hl := congrArg List.length h
      rw [List.length_take] at hl
      simp only [List.length_nil] at hl
      omega
    | cons a l2 => exact ⟨a, l2, rfl⟩
  obtain ⟨REST, hsplitPairs, hRne, hRq⟩ : ∃ REST,
      headersToJsonPairs r =
        ((warcQuotedEntries r).take (k + 1)).map
          (fun e => pairStr e.1 (sanitizeHeader e.2)) ++ REST ∧
      REST ≠ [] ∧ ∀ p ∈ REST, ∃ t, p = '\"' :: t := by
    refine ⟨((warcQuotedEntries r).drop (k + 1)).map
        (fun e => pairStr e.1 (sanitizeHeader e.2)) ++
      (contentLengthEntry (warcContentLength r) ::
        (optPair ("WARC-Payload-Digest".toList) r.payloadDigest ++
         optPair ("WARC-Block-Digest".toList) r.blockDigest ++
         optPair ("WARC-Identified-Payload-Type".toList) r.identifiedPayloadType)),
      ?_, ?_, ?_⟩
    · rw [headersToJsonPairs_decomp r]
      conv_lhs => rw [← List.take_append_drop (k + 1) (warcQuotedEntries r)]
      rw [List.map_append, List.append_assoc]
    · simp
    · intro p hp
      rcases List.mem_append.mp hp with h | hp
      · obtain ⟨e2, -, he2⟩ := List.mem_map.mp h
        rw [← he2]
        exact pairStr_head _ _
      rcases List.mem_cons.mp hp with h | hp
      · rw [h]
        exact contentLengthEntry_head _
      rcases List.mem_append.mp hp with hp2 | h
      · rcases List.mem_append.mp hp2 with h | h
        · obtain ⟨u, hu⟩ := mem_optPair h
          rw [hu]
          exact pairStr_head _ _
        · obtain ⟨u, hu⟩ := mem_optPair h
          rw [hu]
          exact pairStr_head _ _
      · obtain ⟨u, hu⟩ := mem_optPair h
        rw [hu]
        exact pairStr_head _ _
  obtain ⟨T, hT⟩ := joinSep_pairs_chain ((warcQuotedEntries r).take (k + 1)) REST
    (fun e he => (hclean1 e he).1) hRne hRq
  have hXbnd : ∀ x ∈ (lbrace :: '\"' :: entryPiece e0) :: ts.map entryPiece,
      noBnd patQCommaQ x = true := by
    intro x hx
    rcases List.mem_cons.mp hx with hx0 | hx
    · have he0 : e0 ∈ (warcQuotedEntries r).take (k + 1) := by rw [hts]; simp
      have he0m : e0 ∈ warcQuotedEntries r := List.take_subset _ _ he0
      have hkey := warcQuotedEntries_key r e0 he0m
      obtain ⟨-, h2, h3⟩ := hclean1 e0 he0
      rw [hx0]
      exact noBnd_head_entry e0 (fun c hc => ⟨(hkey c hc).1, (hkey c hc).2.1⟩) h2 h3
    · obtain ⟨e, he, hee⟩ := List.mem_map.mp hx
      have he1 : e ∈ (warcQuotedEntries r).take (k + 1) := by rw [hts]; simp [he]
      have he1m : e ∈ warcQuotedEntries r := List.take_subset _ _ he1
      have hkey := warcQuotedEntries_key r e he1m
      obtain ⟨-, h2, h3⟩ := hclean1 e he1
      rw [← hee]
      exact noBnd_mid_entry e (fun c hc => (hkey c hc).1) h2 h3
  have hfull : headersToJson r =
      sepChain patQCommaQ ((lbrace :: '\"' :: entryPiece e0) :: ts.map entryPiece)
        (T ++ [rbrace]) := by
    unfold headersToJson braceWrap
    rw [hsplitPairs, hT, hts]
    simp only [List.map_cons, sepChain]
    rw [← sepChain_append]
    simp [List.append_assoc]
  have hsplit : splitOnL patQCommaQ (headersToJson r) =
      ((lbrace :: '\"' :: entryPiece e0) :: ts.map entryPiece) ++
        splitOnL patQCommaQ (T ++ [rbrace]) := by
    rw [hfull]
    exact splitOnL_sepChain patQCommaQ (by decide) _ _ hXbnd
  have htslen : ts.length = k := by
    have hl := congrArg List.length hts
    rw [List.length_take] at hl
    simp only [List.length_cons] at hl
    omega
  have hpiece : ∃ piece ks0, (splitOnL patQCommaQ (headersToJson r)).get? k = some piece ∧
      splitOnL patQColonQ piece = [ks0, escQ v] := by
    cases k with
    | zero =>
      obtain ⟨he0v, htsnil⟩ : e0 = (key, v) ∧ ts = [] := by
        have h01 : e0 :: ts = [(key, v)] := by rw [← hts, htake]; simp
        injection h01 with h1 h2
        exact ⟨h1, h2⟩
      refine ⟨lbrace :: '\"' :: entryPiece e0, lbrace :: '\"' :: key, ?_, ?_⟩
      · rw [hsplit, htsnil]
        simp
      · have hkey := warcQuotedEntries_key r e0
          (List.take_subset _ _ (by rw [hts]; simp))
        rw [he0v] at hkey ⊢
        have hsp := splitColon_head (key, v) (fun c hc => ⟨(hkey c hc).1, (hkey c hc).2.2⟩)
        simpa using hsp
    | succ j =>
      have hget : ts.get? j = some (key, v) := by
        have h1 : ((warcQuotedEntries r).take (j + 1 + 1)).get? (j + 1) = some (key, v) := by
          rw [List.get?_take (Nat.lt_succ_self (j + 1))]
          exact hk
        rw [hts] at h1
        simpa using h1
      have hkmem : (key, v) ∈ warcQuotedEntries r :=
        List.take_subset _ _
          (by rw [hts]; exact List.mem_cons_of_mem e0 (List.get?_mem hget))
      have hkey := warcQuotedEntries_key r (key, v) hkmem
      refine ⟨entryPiece (key, v), key, ?_, ?_⟩
      · rw [hsplit, List.get?_append]
        · simp only [List.get?_cons_succ]
          rw [List.get?_map, hget]
          rfl
        · simp only [List.length_cons, List.length_map, htslen]
          omega
      · have hsp := splitColon_mid (key, v) (fun c hc => (hkey c hc).1)
        simpa using hsp
  obtain ⟨piece, ks0, hp1, hp2⟩ := hpiece
  have hrecv : recoverValueAt k (headersToJson r) = some v := by
    unfold recoverValueAt
    rw [hp1]
    simp only [Option.some_bind]
    rw [hp2]
    simp [unescQ_escQ]
  obtain ⟨pr, hpr, hwh⟩ : ∃ pr, (parseWarcRecord (some r)).1 = some pr ∧
      pr.warc_headers = sanitizeForFFI (headersToJson r) := by
    simp only [parseWarcRecord, hw]
    split
    · exact ⟨_, rfl, rfl⟩
    · exact ⟨_, rfl, rfl⟩
  rw [hpr]
  simp only [Option.map_some']
  rw [hwh, sanitizeForFFI_headersToJson, hrecv]

/-- C4 counterexample: the claim as stated fails at a record whose
WARC-Type value ends in quote comma space, because a spurious split
pattern arises at the end of the escaped value. -/
theorem header_quote_recovery_cex :
    '\"' ∈ ("x\", ".toList) ∧
    (parseWarcRecord (some cexRecord)).1.map (fun pr => recoverValueAt 0 pr.warc_headers) ≠
      some (some ("x\", ".toList)) := by decide

/-- Witness for the amended C4 at a concrete record whose quoted value
sits in the WARC-Date header, at index one of the encoded map. -/
theorem header_quote_recovery_amended_witness :
    (parseWarcRecord (some okRecord)).1.map (fun pr => recoverValueAt 1 pr.warc_headers) =
      some (some ("a\"b".toList)) :=
  header_quote_recovery_amended okRecord 1 ("WARC-Date".toList) ("a\"b".toList)
    ("metadata".toList) rfl (by decide) (by decide) (by decide) (by decide) (by decide)
